import Mathlib

/-!
Verification of the SkillVerse in-memory index layer: the hand-built
`HashMap`, `MaxHeap`, and `Trie` from `BACKEND/models/data_structures.py`,
and their compositions `ServiceManager.get_featured_services` and
`SearchEngine.get_autocomplete_suggestions` from
`BACKEND/services/managers.py`.

Modelling conventions:
* Python lists become Lean `List`s; in-place index assignment becomes
  `List.set`; reading `heap[i]` becomes a total getter that returns a
  default value out of range (every use in the source is in range, and the
  proofs carry the bounds).
* Python strings become `List Char`; `str.lower()` becomes a character-wise
  `Char.toLower` map.
* `datetime` timestamps become integer seconds (`Nat`).  The expression
  `(now - t).seconds` on a nonnegative whole-second `timedelta` equals the
  total age modulo 86400 (the `seconds` field of a `timedelta` wraps at one
  day), so it is modelled as `(now - t) % 86400`.
* Exceptions (`KeyError`, `IndexError`) become `Option`/`none`.
-/

namespace SkillVerse

/-- A heap entry, mirroring the source's `(priority, order, item)` tuples
stored in `MaxHeap._heap`. -/
abbrev Entry (P α : Type) := P × Nat × α

variable {P α : Type} [LinearOrder P] [Inhabited P] [Inhabited α]

/-- Source `self._heap[i][0]`: the priority stored at index `i` (default value when
out of range; every use in the source is in range). -/
def pAt (h : List (Entry P α)) (i : Nat) : P :=
  ((h[i]?).map (fun e => e.1)).getD default

/-- Source `self._heap[i]` as a total getter. -/
def eAt (h : List (Entry P α)) (i : Nat) : Entry P α :=
  (h[i]?).getD default

/-- Source `MaxHeap._swap`: exchange the entries at indices `i` and `j`. -/
def swapL (h : List (Entry P α)) (i j : Nat) : List (Entry P α) :=
  match h[i]?, h[j]? with
  | some ei, some ej => (h.set i ej).set j ei
  | _, _ => h

/-- Source `MaxHeap._heapify_up`: bubble the entry at `i` up while its priority is
strictly greater than its parent's. -/
def heapify_up (h : List (Entry P α)) (i : Nat) : List (Entry P α) :=
  if i = 0 then h
  else
    if pAt h ((i - 1) / 2) < pAt h i then
      heapify_up (swapL h i ((i - 1) / 2)) ((i - 1) / 2)
    else h
termination_by i
decreasing_by omega

/-- The `largest` index computed by one iteration of the
`MaxHeap._heapify_down` loop: start from `i`, move to the left child if it is
strictly greater, then to the right child if it is strictly greater than the
current candidate. -/
def largestIdx (h : List (Entry P α)) (i : Nat) : Nat :=
  let n := h.length
  let m1 := if 2 * i + 1 < n ∧ pAt h i < pAt h (2 * i + 1) then 2 * i + 1 else i
  if 2 * i + 2 < n ∧ pAt h m1 < pAt h (2 * i + 2) then 2 * i + 2 else m1

/-- Source `MaxHeap._heapify_down`: bubble the entry at `i` down, swapping with the
strictly larger of its children, until neither child is larger. -/
def heapify_down (h : List (Entry P α)) (i : Nat) : List (Entry P α) :=
  if largestIdx h i = i then h
  else heapify_down (swapL h i (largestIdx h i)) (largestIdx h i)
termination_by h.length - i
decreasing_by
  have hlen : ∀ (l : List (Entry P α)) (a b : Nat), (swapL l a b).length = l.length := by
    intro l a b
    unfold swapL
    split <;> simp
  have hc : largestIdx h i = i ∨ (i < largestIdx h i ∧ largestIdx h i < h.length) := by
    unfold largestIdx
    dsimp only
    split_ifs <;> omega
  rw [hlen]
  omega

/-- The state of a `MaxHeap`: the entry array plus the monotone insertion
counter used for the `order` component of new entries. -/
structure MaxHeap (P α : Type) where
  heap : List (Entry P α)
  counter : Nat
deriving DecidableEq

/-- Source `MaxHeap()`: empty heap, counter `0`. -/
def MaxHeap.empty (P α : Type) : MaxHeap P α := ⟨[], 0⟩

/-- The body of `MaxHeap.insert` after the `priority is None` default has
been resolved: append `(priority, counter, item)`, bump the counter, sift up
from the last index. -/
def MaxHeap.insertP (st : MaxHeap P α) (item : α) (priority : P) : MaxHeap P α :=
  let h := st.heap ++ [(priority, st.counter, item)]
  ⟨heapify_up h (h.length - 1), st.counter + 1⟩

/-- Source `MaxHeap.insert(item, priority=None)` in the homogeneous case where the
item itself is a usable priority: `if priority is None: priority = item`. -/
def MaxHeap.insertOpt (st : MaxHeap P P) (item : P) (priority : Option P) : MaxHeap P P :=
  match priority with
  | none => st.insertP item item
  | some p => st.insertP item p

/-- Source `MaxHeap.extract_max`, returning the popped entry (the source returns
only its `item` component; see `MaxHeap.extract_max`).  `none` models the
`IndexError` on an empty heap.  The source swaps index `0` with the last
index, pops the last element, and sifts down from the root if the heap is
still nonempty. -/
def MaxHeap.extractMaxE (st : MaxHeap P α) : Option (Entry P α × MaxHeap P α) :=
  if st.heap.isEmpty then none
  else
    let h1 := swapL st.heap 0 (st.heap.length - 1)
    let e := eAt h1 (h1.length - 1)
    let h2 := h1.dropLast
    let h3 := if h2.isEmpty then h2 else heapify_down h2 0
    some (e, ⟨h3, st.counter⟩)

/-- Source `MaxHeap.extract_max`: remove and return the item with the highest
priority (`none` models the `IndexError` on an empty heap). -/
def MaxHeap.extract_max (st : MaxHeap P α) : Option (α × MaxHeap P α) :=
  (st.extractMaxE).map (fun p => (p.1.2.2, p.2))

/-- Repeatedly `extract_max`, `k` times, keeping the popped entries in
order (stops early on an empty heap, which never happens when `k` is at most
the size). -/
def MaxHeap.extractEntries (st : MaxHeap P α) (k : Nat) : List (Entry P α) × MaxHeap P α :=
  match k with
  | 0 => ([], st)
  | k' + 1 =>
    match st.extractMaxE with
    | none => ([], st)
    | some (e, st') =>
      let r := st'.extractEntries k'
      (e :: r.1, r.2)

/-- The item sequence produced by `k` repeated `extract_max` calls. -/
def MaxHeap.extractItems (st : MaxHeap P α) (k : Nat) : List α :=
  (st.extractEntries k).1.map (fun e => e.2.2)

/-- Source `MaxHeap.nlargest(n, iterable, key)`: insert every element with its key
as priority, then `extract_max` exactly `min n size` times. -/
def MaxHeap.nlargest (n : Nat) (items : List α) (key : α → P) : List α :=
  let heap := items.foldl (fun st x => st.insertP x (key x)) (MaxHeap.empty P α)
  heap.extractItems (min n heap.heap.length)

/-- Build a heap by inserting `(priority, item)` pairs in order (each call
is `insert(item, priority)`). -/
def MaxHeap.build (ops : List (P × α)) : MaxHeap P α :=
  ops.foldl (fun st op => st.insertP op.2 op.1) (MaxHeap.empty P α)

/-- The max-heap property of the entry array: every non-root index has
priority at most its parent's priority (`spec: every non-root entry's
priority is ≤ its parent's priority`). -/
def HeapProp (h : List (Entry P α)) : Prop :=
  ∀ i, 0 < i → i < h.length → pAt h i ≤ pAt h ((i - 1) / 2)

/-- The sift-up invariant: the heap property holds at every edge except
possibly the one from the moving index `j` to its parent, and (when `j` is
not the root) the children of `j` are already bounded by `j`'s parent. -/
def UpInv (h : List (Entry P α)) (j : Nat) : Prop :=
  (∀ i, 0 < i → i < h.length → i ≠ j → pAt h i ≤ pAt h ((i - 1) / 2)) ∧
  (0 < j → ∀ c, 0 < c → c < h.length → (c - 1) / 2 = j →
    pAt h c ≤ pAt h ((j - 1) / 2))

/-- The sift-down invariant: the heap property holds at every edge except
possibly those into the moving index `j`, and (when `j` is not the root) the
children of `j` are bounded by `j`'s parent. -/
def DownInv (h : List (Entry P α)) (j : Nat) : Prop :=
  (∀ i, 0 < i → i < h.length → (i - 1) / 2 ≠ j → pAt h i ≤ pAt h ((i - 1) / 2)) ∧
  (0 < j → ∀ c, 0 < c → c < h.length → (c - 1) / 2 = j →
    pAt h c ≤ pAt h ((j - 1) / 2))

/-- Heap states reachable by any sequence of `insert` and (successful)
`extract_max` operations from the empty heap. -/
inductive ReachableHeap : MaxHeap P α → Prop where
  | empty : ReachableHeap (MaxHeap.empty P α)
  | insert (st : MaxHeap P α) (item : α) (pr : P) :
      ReachableHeap st → ReachableHeap (st.insertP item pr)
  | extract (st st' : MaxHeap P α) (e : Entry P α) :
      ReachableHeap st → st.extractMaxE = some (e, st') → ReachableHeap st'

/-! ## HashMap (`data_structures.py`, class `HashMap`)

A bucket chain (`_HashNode` linked list) becomes a `List (K × V)`, head
first, since the source prepends new nodes at the bucket head.  The Python
`hash` builtin becomes an arbitrary function parameter `hf : K → Nat`.  The
load-factor test `self._size / self._capacity > 0.75` is exact rational
arithmetic at these magnitudes, modelled as `4 * size > 3 * capacity`. -/

variable {K V : Type} [DecidableEq K]

/-- The chain walk of `__getitem__`: first node with a matching key. -/
def chainLookup : List (K × V) → K → Option V
  | [], _ => none
  | (k', v) :: rest, k => if k' = k then some v else chainLookup rest k

/-- The chain walk of `__contains__`. -/
def chainHas : List (K × V) → K → Bool
  | [], _ => false
  | (k', _) :: rest, k => if k' = k then true else chainHas rest k

/-- The update branch of `__setitem__`: overwrite the value of the first
node with a matching key. -/
def chainUpdate : List (K × V) → K → V → List (K × V)
  | [], _, _ => []
  | (k', v') :: rest, k, v =>
    if k' = k then (k', v) :: rest else (k', v') :: chainUpdate rest k v

/-- The unlink of `__delitem__`: drop the first node with a matching key. -/
def chainRemove : List (K × V) → K → List (K × V)
  | [], _ => []
  | (k', v') :: rest, k => if k' = k then rest else (k', v') :: chainRemove rest k

/-- The state of the hand-built `HashMap`: bucket array, its length as the
capacity, and the entry count. -/
structure HashMap (K V : Type) where
  capacity : Nat
  buckets : List (List (K × V))
  size : Nat
deriving DecidableEq

/-- Source `HashMap()` / `clear()`: 16 empty buckets (`INITIAL_CAPACITY = 16`). -/
def HashMap.emptyHM (K V : Type) : HashMap K V := ⟨16, List.replicate 16 [], 0⟩

/-- Source `__setitem__` without the trailing load-factor check: update in place if
the key is chained in its bucket, else prepend a new node and bump the
size. -/
def HashMap.setRaw (hf : K → Nat) (m : HashMap K V) (k : K) (v : V) : HashMap K V :=
  let i := hf k % m.capacity
  let chain := m.buckets.getD i []
  if chainHas chain k then
    ⟨m.capacity, m.buckets.set i (chainUpdate chain k v), m.size⟩
  else
    ⟨m.capacity, m.buckets.set i ((k, v) :: chain), m.size + 1⟩

/-- All entries, iterating buckets in order and each chain head first — the
traversal order of `_resize` (and of `keys()`/`values()`/`items()`). -/
def HashMap.entries (m : HashMap K V) : List (K × V) := m.buckets.flatten

/-- Source `HashMap._resize`: double the capacity and re-insert every entry into a
fresh bucket array.  The source re-inserts through `__setitem__`; during the
refill the load-factor check can never fire (the entry count `n` satisfies
`4 * n ≤ 3 * c + 4 < 6 * c` for the pre-resize capacity `c ≥ 16`, and the
check against the doubled capacity demands `4 * n > 6 * c`), so the refill
is modelled with the check-free insert. -/
def HashMap.resizeHM (hf : K → Nat) (m : HashMap K V) : HashMap K V :=
  (m.entries).foldl (fun acc kv => acc.setRaw hf kv.1 kv.2)
    ⟨m.capacity * 2, List.replicate (m.capacity * 2) [], 0⟩

/-- Source `__setitem__`: raw insert, then resize when the load factor exceeds
`0.75`. -/
def HashMap.setItem (hf : K → Nat) (m : HashMap K V) (k : K) (v : V) : HashMap K V :=
  let m' := m.setRaw hf k v
  if 4 * m'.size > 3 * m'.capacity then m'.resizeHM hf else m'

/-- Source `__getitem__`: `none` models the `KeyError`. -/
def HashMap.getItem? (hf : K → Nat) (m : HashMap K V) (k : K) : Option V :=
  chainLookup (m.buckets.getD (hf k % m.capacity) []) k

/-- Source `__contains__`. -/
def HashMap.containsKey (hf : K → Nat) (m : HashMap K V) (k : K) : Bool :=
  chainHas (m.buckets.getD (hf k % m.capacity) []) k

/-- Source `__delitem__`: `none` models the `KeyError` on an absent key. -/
def HashMap.delItem? (hf : K → Nat) (m : HashMap K V) (k : K) : Option (HashMap K V) :=
  let i := hf k % m.capacity
  let chain := m.buckets.getD i []
  if chainHas chain k then
    some ⟨m.capacity, m.buckets.set i (chainRemove chain k), m.size - 1⟩
  else none

/-- Source `HashMap.get(key, default)`: `__getitem__` with the `KeyError` caught. -/
def HashMap.getDefault (hf : K → Nat) (m : HashMap K V) (k : K) (d : V) : V :=
  (m.getItem? hf k).getD d

/-- The value of the last `set` with key `k` in `ops` — the claim's
"last-set value". -/
def lastVal (ops : List (K × V)) (k : K) : Option V :=
  ops.foldl (fun acc kv => if kv.1 = k then some kv.2 else acc) none

/-- Apply a whole sequence of `set` operations to a fresh table. -/
def HashMap.ofOps (hf : K → Nat) (ops : List (K × V)) : HashMap K V :=
  ops.foldl (fun m kv => m.setItem hf kv.1 kv.2) (HashMap.emptyHM K V)

/-- Table states reachable by any sequence of `set` and (successful)
`delete` operations from the empty table. -/
inductive ReachableHM (hf : K → Nat) : HashMap K V → Prop where
  | empty : ReachableHM hf (HashMap.emptyHM K V)
  | set (m : HashMap K V) (k : K) (v : V) :
      ReachableHM hf m → ReachableHM hf (m.setItem hf k v)
  | del (m m' : HashMap K V) (k : K) :
      ReachableHM hf m → m.delItem? hf k = some m' → ReachableHM hf m'

/-- One public mutating table operation: an assignment `m[k] = v` or a
deletion `del m[k]`. -/
inductive HMOp (K V : Type) where
  | set (k : K) (v : V)
  | del (k : K)

/-- Whether the operation is an assignment to the key `k` (the only kind of
operation that can make a deleted key present again). -/
def HMOp.isSetOf (k : K) : HMOp K V → Bool
  | .set k' _ => k' = k
  | .del _ => false

/-- Apply one operation to the table.  A failed deletion raises `KeyError`
in the source and leaves the table unchanged. -/
def applyOp (hf : K → Nat) (m : HashMap K V) : HMOp K V → HashMap K V
  | .set k v => m.setItem hf k v
  | .del k =>
    match m.delItem? hf k with
    | some m' => m'
    | none => m

/-- Apply a whole sequence of operations in order. -/
def applyOps (hf : K → Nat) (m : HashMap K V) (ops : List (HMOp K V)) : HashMap K V :=
  ops.foldl (applyOp hf) m

/-! ## Trie (`data_structures.py`, classes `_TrieNode` and `Trie`)

Children (`char -> _TrieNode` dict) become a sorted association list: the
source's dict keeps insertion order but is only ever iterated through
`sorted(node.children.keys())` in `_collect_words`, and key lookup is
order-independent, so a character-sorted list is observationally
equivalent.  `str.lower()` becomes a character-wise `Char.toLower`. -/

/-- A collected suggestion candidate: `(original_word, frequency)`. -/
abbrev WordEntry := List Char × Nat

/-- Source `_TrieNode`: children, `is_end`, `original_word`, `frequency`. -/
inductive TrieNode : Type where
  | mk : List (Char × TrieNode) → Bool → Option (List Char) → Nat → TrieNode

def TrieNode.children : TrieNode → List (Char × TrieNode)
  | .mk c _ _ _ => c

def TrieNode.is_end : TrieNode → Bool
  | .mk _ b _ _ => b

def TrieNode.original_word : TrieNode → Option (List Char)
  | .mk _ _ o _ => o

def TrieNode.frequency : TrieNode → Nat
  | .mk _ _ _ f => f

/-- Source `_TrieNode()`: fresh node. -/
def TrieNode.emptyNode : TrieNode := .mk [] false none 0

/-- Character-wise `str.lower()`. -/
def lowerL (s : List Char) : List Char := s.map Char.toLower

/-- The guard of `Trie.insert`: a word is inserted unless it is empty or
whitespace-only (`if not word or not word.strip(): return`). -/
def validWord (w : List Char) : Bool := !w.isEmpty && w.any (fun c => !c.isWhitespace)

/-- Dict lookup `node.children[char]` / `char in node.children`. -/
def findChild : List (Char × TrieNode) → Char → Option TrieNode
  | [], _ => none
  | (c', n) :: rest, c => if c' = c then some n else findChild rest c

/-- Add a fresh child at its character-sorted position (dict insertion, in
the sorted-list representation). -/
def insertChild (c : Char) (n : TrieNode) : List (Char × TrieNode) → List (Char × TrieNode)
  | [] => [(c, n)]
  | (c', n') :: rest =>
    if c < c' then (c, n) :: (c', n') :: rest else (c', n') :: insertChild c n rest

/-- Overwrite the child stored under character `c` (dict assignment for an
existing key). -/
def replaceChild (c : Char) (n : TrieNode) (l : List (Char × TrieNode)) :
    List (Char × TrieNode) :=
  l.map (fun p => if p.1 = c then (c, n) else p)

/-- The walking loop of `Trie.insert` over the already-lowercased character
list `cs`, creating missing nodes, then marking the final node terminal,
storing the original-cased word, and bumping its frequency. -/
def insertChars : TrieNode → List Char → List Char → TrieNode
  | t, [], orig => .mk t.children true (some orig) (t.frequency + 1)
  | t, c :: rest, orig =>
    match findChild t.children c with
    | some child =>
      .mk (replaceChild c (insertChars child rest orig) t.children)
        t.is_end t.original_word t.frequency
    | none =>
      .mk (insertChild c (insertChars TrieNode.emptyNode rest orig) t.children)
        t.is_end t.original_word t.frequency

/-- The shared path-walking loop of `search` / `starts_with` /
`get_suggestions` (`for char in ...: if char not in node.children: ...`). -/
def walk : TrieNode → List Char → Option TrieNode
  | t, [] => some t
  | t, c :: rest =>
    match findChild t.children c with
    | some child => walk child rest
    | none => none

/-- The `Trie` object: root node plus the distinct-term counter. -/
structure Trie where
  root : TrieNode
  word_count : Nat

/-- Source `Trie()`. -/
def Trie.emptyTrie : Trie := ⟨TrieNode.emptyNode, 0⟩

/-- Source `Trie.insert(word)`: skip empty/whitespace-only words; otherwise walk
and create the lowercased path, count the word if its end node was not
already terminal, mark it terminal, store the original casing, bump the
frequency. -/
def Trie.insertW (tr : Trie) (w : List Char) : Trie :=
  if validWord w then
    let cs := lowerL w
    let already :=
      match walk tr.root cs with
      | some n => n.is_end
      | none => false
    ⟨insertChars tr.root cs w, if already then tr.word_count else tr.word_count + 1⟩
  else tr

/-- Source `Trie.search(word)`. -/
def Trie.search (tr : Trie) (w : List Char) : Bool :=
  if w.isEmpty then false
  else
    match walk tr.root (lowerL w) with
    | some n => n.is_end
    | none => false

/-- Source `Trie.starts_with(prefix)`: `False` on an empty prefix, else whether the
lowercased prefix path exists. -/
def Trie.starts_with (tr : Trie) (p : List Char) : Bool :=
  if p.isEmpty then false else (walk tr.root (lowerL p)).isSome

mutual
/-- Source `Trie._collect_words`: DFS appending `(original_word, frequency)` at
terminal nodes, visiting children in ascending character order, returning as
soon as `limit` results have been collected. -/
def collectWords (node : TrieNode) (acc : List WordEntry) (limit : Nat) : List WordEntry :=
  if limit ≤ acc.length then acc
  else
    collectGo node.children
      (if node.is_end then acc ++ [(node.original_word.getD [], node.frequency)] else acc)
      limit
termination_by sizeOf node
decreasing_by
  cases node
  simp [TrieNode.children]
  try omega

/-- The `for char in sorted(node.children.keys())` loop of
`_collect_words`. -/
def collectGo (l : List (Char × TrieNode)) (acc : List WordEntry) (limit : Nat) :
    List WordEntry :=
  match l with
  | [] => acc
  | (_, child) :: rest => collectGo rest (collectWords child acc limit) limit
termination_by sizeOf l
end

mutual
/-- The full DFS word list below a node (children in ascending character
order) with no collection limit — the spec-side view of `_collect_words`. -/
def dfsAll (node : TrieNode) : List WordEntry :=
  (if node.is_end then [(node.original_word.getD [], node.frequency)] else []) ++
    dfsGo node.children
termination_by sizeOf node
decreasing_by
  cases node
  simp [TrieNode.children]
  try omega

/-- DFS over a children list. -/
def dfsGo : List (Char × TrieNode) → List WordEntry
  | [] => []
  | (_, child) :: rest => dfsAll child ++ dfsGo rest
termination_by l => sizeOf l
end

/-- Strict comparison of the sort key `(-frequency, len(original))` used by
`get_suggestions` (`results.sort(key=lambda x: (-x[1], len(x[0])))`). -/
def keyLt (a b : WordEntry) : Bool :=
  b.2 < a.2 || (a.2 == b.2 && a.1.length < b.1.length)

/-- Stable insertion: place `e` after every earlier element whose key is not
strictly greater — together with `sortResults` this models Python's stable
`list.sort`. -/
def insSorted (e : WordEntry) : List WordEntry → List WordEntry
  | [] => [e]
  | x :: xs => if keyLt e x then e :: x :: xs else x :: insSorted e xs

/-- Python's stable `list.sort` under the key `(-frequency, length)`. -/
def sortResults (l : List WordEntry) : List WordEntry :=
  l.foldl (fun acc e => insSorted e acc) []

/-- Source `Trie.get_suggestions(prefix, limit)`: empty on an empty prefix or a
missing path; otherwise collect at most `limit * 3` DFS candidates, sort by
frequency descending then shorter word first, return the first `limit`
original-cased words. -/
def Trie.get_suggestions (tr : Trie) (p : List Char) (limit : Nat) : List (List Char) :=
  if p.isEmpty then []
  else
    match walk tr.root (lowerL p) with
    | none => []
    | some node =>
      let results := collectWords node [] (limit * 3)
      ((sortResults results).take limit).map (fun e => e.1)

/-- Build a trie by inserting a list of words in order. -/
def Trie.ofWords (ws : List (List Char)) : Trie :=
  ws.foldl (fun tr w => tr.insertW w) Trie.emptyTrie

/-- The spec side: `suggest(prefix, limit)` as the spec words it: silently empty when the
prefix is empty or its path does not exist; otherwise collect up to
`limit * 3` terminal `(originalTerm, occurrenceCount)` pairs by DFS with
children in ascending character order, sort by count descending breaking
ties by shorter term first (stably), and return the first `limit`
original-cased terms. -/
def suggestSpec (tr : Trie) (p : List Char) (limit : Nat) : List (List Char) :=
  if p.isEmpty then []
  else
    match walk tr.root (lowerL p) with
    | none => []
    | some node =>
      ((sortResults ((dfsAll node).take (limit * 3))).take limit).map (fun e => e.1)

/-! ## ServiceManager ranking cache (`managers.py`)

The cache key `f'featured_services_{limit}'` is in bijection with `limit`,
so cache keys are modelled as the `limit : Nat` itself, stored in the
hand-built `HashMap` exactly as in the source. -/

/-- Source `ServiceManager`: the `_cache` HashMap (timeout constant 300 s). -/
structure ServiceManager (α : Type) where
  cache : HashMap Nat (List α × Nat)

/-- Source `ServiceManager()`. -/
def ServiceManager.emptySM (α : Type) : ServiceManager α := ⟨HashMap.emptyHM Nat _⟩

/-- Source `ServiceManager.get_featured_services(limit)`: serve the cached list
when the key is present and `(datetime.now() - timestamp).seconds < 300`
(the day-wrapped seconds component, modelled by `(now - t) % 86400 < 300`);
otherwise recompute the top-`limit` services with `MaxHeap.nlargest` and
re-store them under the key with the current time. -/
def ServiceManager.get_featured_services (hf : Nat → Nat) (sm : ServiceManager α)
    (now : Nat) (services : List α) (key : α → P) (limit : Nat) :
    List α × ServiceManager α :=
  match sm.cache.getItem? hf limit with
  | some (data, t) =>
    if (now - t) % 86400 < 300 then (data, sm)
    else
      let featured := MaxHeap.nlargest limit services key
      (featured, ⟨sm.cache.setItem hf limit (featured, now)⟩)
  | none =>
    let featured := MaxHeap.nlargest limit services key
    (featured, ⟨sm.cache.setItem hf limit (featured, now)⟩)

/-! ## SearchEngine autocomplete (`managers.py`) -/

/-- Source `SearchEngine`: suggestions cache, trie, and the trie build
timestamp (`_trie_timeout = 300`). -/
structure SearchEngine where
  suggestions_cache : HashMap (List Char) (List (List Char))
  trie : Trie
  trie_built_at : Option Nat

/-- Source `SearchEngine()`. -/
def SearchEngine.initSE : SearchEngine :=
  ⟨HashMap.emptyHM (List Char) _, Trie.emptyTrie, none⟩

/-- Source `SearchEngine._build_trie`: replace the trie wholesale with one built
from the catalog's titles and tags (flattened here into one word list) and
record the build time.  The suggestions cache is not touched. -/
def SearchEngine.build_trie (se : SearchEngine) (catalog : List (List Char)) (now : Nat) :
    SearchEngine :=
  ⟨se.suggestions_cache, Trie.ofWords catalog, some now⟩

/-- Source `SearchEngine._ensure_trie_fresh`: rebuild when never built or when the
day-wrapped age strictly exceeds 300 seconds. -/
def SearchEngine.ensure_trie_fresh (se : SearchEngine) (catalog : List (List Char))
    (now : Nat) : SearchEngine :=
  match se.trie_built_at with
  | none => se.build_trie catalog now
  | some t => if 300 < (now - t) % 86400 then se.build_trie catalog now else se

/-- Source `SearchEngine.get_autocomplete_suggestions(query, limit)`: `[]` for a
`None`/short query; otherwise serve the cache entry under the lowercased
query unconditionally when present; otherwise ensure trie freshness, ask the
trie, store the result in the cache, and return it. -/
def SearchEngine.get_autocomplete_suggestions (hf : List Char → Nat) (se : SearchEngine)
    (q : Option (List Char)) (limit : Nat) (catalog : List (List Char)) (now : Nat) :
    List (List Char) × SearchEngine :=
  match q with
  | none => ([], se)
  | some qs =>
    if qs.length < 2 then ([], se)
    else
      let ck := lowerL qs
      match se.suggestions_cache.getItem? hf ck with
      | some v => (v, se)
      | none =>
        let se1 := se.ensure_trie_fresh catalog now
        let res := se1.trie.get_suggestions qs limit
        (res, ⟨se1.suggestions_cache.setItem hf ck res, se1.trie, se1.trie_built_at⟩)

/-! ## Heap array primitives: lengths, reads after swaps, membership -/

theorem pAt_eq_eAt (h : List (Entry P α)) (i : Nat) : pAt h i = (eAt h i).1 := by
  unfold pAt eAt
  cases h[i]? <;> rfl

theorem pAt_of_getElem (h : List (Entry P α)) (i : Nat) (hi : i < h.length) :
    pAt h i = (h[i]).1 := by
  unfold pAt
  rw [(List.getElem?_eq_some_getElem_iff h i hi).mpr trivial]
  rfl

theorem eAt_mem (h : List (Entry P α)) (i : Nat) (hi : i < h.length) : eAt h i ∈ h := by
  unfold eAt
  rw [(List.getElem?_eq_some_getElem_iff h i hi).mpr trivial]
  exact List.getElem_mem hi

theorem swapL_length (h : List (Entry P α)) (i j : Nat) :
    (swapL h i j).length = h.length := by
  unfold swapL
  split <;> simp

theorem getElem?_swapL (h : List (Entry P α)) (i j k : Nat)
    (hi : i < h.length) (hj : j < h.length) :
    (swapL h i j)[k]? = if k = j then h[i]? else if k = i then h[j]? else h[k]? := by
  unfold swapL
  rw [(List.getElem?_eq_some_getElem_iff h i hi).mpr trivial,
    (List.getElem?_eq_some_getElem_iff h j hj).mpr trivial]
  simp only [List.getElem?_set, List.length_set, hi, hj, if_true]
  by_cases hkj : k = j
  · subst hkj
    simp_all
  · by_cases hki : k = i
    · subst hki
      simp_all [Ne.symm hkj]
    · simp_all [Ne.symm hkj, Ne.symm hki]

theorem pAt_swapL (h : List (Entry P α)) (i j k : Nat)
    (hi : i < h.length) (hj : j < h.length) :
    pAt (swapL h i j) k = if k = j then pAt h i else if k = i then pAt h j else pAt h k := by
  unfold pAt
  rw [getElem?_swapL h i j k hi hj]
  by_cases hkj : k = j <;> by_cases hki : k = i <;> simp_all

theorem eAt_swapL (h : List (Entry P α)) (i j k : Nat)
    (hi : i < h.length) (hj : j < h.length) :
    eAt (swapL h i j) k = if k = j then eAt h i else if k = i then eAt h j else eAt h k := by
  unfold eAt
  rw [getElem?_swapL h i j k hi hj]
  by_cases hkj : k = j <;> by_cases hki : k = i <;> simp_all

theorem mem_swapL (h : List (Entry P α)) (i j : Nat) (x : Entry P α)
    (hx : x ∈ swapL h i j) : x ∈ h := by
  unfold swapL at hx
  split at hx
  case _ ei ej hei hej =>
    rcases List.mem_or_eq_of_mem_set hx with hx' | rfl
    · rcases List.mem_or_eq_of_mem_set hx' with hx'' | rfl
      · exact hx''
      · exact List.getElem?_mem hej
    · exact List.getElem?_mem hei
  case _ => exact hx

/-! ## Sift-up: length and membership preservation, heap property -/

theorem heapify_up_length (h : List (Entry P α)) (i : Nat) :
    (heapify_up h i).length = h.length := by
  induction i using Nat.strong_induction_on generalizing h with
  | _ i IH =>
    rw [heapify_up.eq_def]
    split_ifs with h0 hcmp
    · rfl
    · rw [IH _ (by omega), swapL_length]
    · rfl

theorem mem_heapify_up (h : List (Entry P α)) (i : Nat) (x : Entry P α)
    (hx : x ∈ heapify_up h i) : x ∈ h := by
  induction i using Nat.strong_induction_on generalizing h with
  | _ i IH =>
    rw [heapify_up.eq_def] at hx
    split_ifs at hx with h0 hcmp
    · exact hx
    · exact mem_swapL _ _ _ _ (IH _ (by omega) _ hx)
    · exact hx

theorem upInv_step (h : List (Entry P α)) (j : Nat) (hj : j < h.length) (h0 : j ≠ 0)
    (hcmp : pAt h ((j - 1) / 2) < pAt h j) (hinv : UpInv h j) :
    UpInv (swapL h j ((j - 1) / 2)) ((j - 1) / 2) := by
  have hp : (j - 1) / 2 < h.length := lt_of_le_of_lt (by omega) hj
  have hsw : ∀ k, pAt (swapL h j ((j - 1) / 2)) k =
      if k = (j - 1) / 2 then pAt h j else if k = j then pAt h ((j - 1) / 2) else pAt h k :=
    fun k => pAt_swapL h j ((j - 1) / 2) k hj hp
  obtain ⟨hA, hB⟩ := hinv
  constructor
  · intro i hi hlen hne
    rw [swapL_length] at hlen
    rw [hsw i, hsw ((i - 1) / 2)]
    rw [if_neg hne]
    by_cases hij : i = j
    · -- the swapped edge itself: parent of `j` is the hole
      subst hij
      rw [if_pos rfl, if_pos rfl]
      exact le_of_lt hcmp
    · rw [if_neg hij]
      by_cases hpar : (i - 1) / 2 = (j - 1) / 2
      · -- `i` is the sibling of `j` under the hole
        rw [if_pos hpar]
        exact le_of_lt (lt_of_le_of_lt (hpar ▸ hA i hi hlen hij) hcmp)
      · rw [if_neg hpar]
        by_cases hparj : (i - 1) / 2 = j
        · -- `i` is a child of `j`
          rw [if_pos hparj]
          exact hparj ▸ hB (by omega) i hi hlen hparj
        · -- an untouched edge
          rw [if_neg hparj]
          exact hA i hi hlen hij
  · intro hppos c hc hclen hcpar
    rw [swapL_length] at hclen
    have hgp : (((j - 1) / 2) - 1) / 2 ≠ (j - 1) / 2 := by omega
    have hgpj : (((j - 1) / 2) - 1) / 2 ≠ j := by omega
    have h2 : pAt h ((j - 1) / 2) ≤ pAt h ((((j - 1) / 2) - 1) / 2) :=
      hA ((j - 1) / 2) hppos hp (by omega)
    rw [hsw c, hsw _, if_neg hgp, if_neg hgpj]
    by_cases hcj : c = j
    · -- `c` is `j` itself, which now holds the old parent value
      subst hcj
      rw [if_neg (by omega), if_pos rfl]
      exact h2
    · -- `c` is the sibling of `j`; bound it through the old parent edge
      rw [if_neg (by omega), if_neg hcj]
      exact le_trans (hcpar ▸ hA c hc hclen hcj) h2

theorem heapify_up_heapProp (h : List (Entry P α)) (j : Nat) (hj : j < h.length)
    (hinv : UpInv h j) : HeapProp (heapify_up h j) := by
  induction j using Nat.strong_induction_on generalizing h with
  | _ j IH =>
    rw [heapify_up.eq_def]
    split_ifs with h0 hcmp
    · subst h0
      intro i hi hlen
      exact hinv.1 i hi hlen (by omega)
    · exact IH _ (by omega) _ (by rw [swapL_length]; omega)
        (upInv_step h j hj h0 hcmp hinv)
    · intro i hi hlen
      by_cases hij : i = j
      · subst hij
        exact le_of_not_lt hcmp
      · exact hinv.1 i hi hlen hij

/-! ## Sift-down: the `largest` selection, length/membership, heap property -/

theorem largestIdx_spec (h : List (Entry P α)) (i : Nat) :
    largestIdx h i = i ∨
    (i < largestIdx h i ∧ largestIdx h i < h.length ∧ (largestIdx h i - 1) / 2 = i ∧
      pAt h i < pAt h (largestIdx h i) ∧
      ∀ c, 0 < c → c < h.length → (c - 1) / 2 = i → pAt h c ≤ pAt h (largestIdx h i)) := by
  unfold largestIdx
  dsimp only
  by_cases h1 : 2 * i + 1 < h.length ∧ pAt h i < pAt h (2 * i + 1)
  · rw [if_pos h1]
    by_cases h2 : 2 * i + 2 < h.length ∧ pAt h (2 * i + 1) < pAt h (2 * i + 2)
    · rw [if_pos h2]
      right
      refine ⟨by omega, h2.1, by omega, lt_trans h1.2 h2.2, ?_⟩
      intro c hc hcl hcp
      rcases (by omega : c = 2 * i + 1 ∨ c = 2 * i + 2) with rfl | rfl
      · exact le_of_lt h2.2
      · exact le_refl _
    · rw [if_neg h2]
      right
      refine ⟨by omega, h1.1, by omega, h1.2, ?_⟩
      intro c hc hcl hcp
      rcases (by omega : c = 2 * i + 1 ∨ c = 2 * i + 2) with rfl | rfl
      · exact le_refl _
      · exact le_of_not_lt (fun hlt => h2 ⟨hcl, hlt⟩)
  · rw [if_neg h1]
    by_cases h2 : 2 * i + 2 < h.length ∧ pAt h i < pAt h (2 * i + 2)
    · rw [if_pos h2]
      right
      refine ⟨by omega, h2.1, by omega, h2.2, ?_⟩
      intro c hc hcl hcp
      rcases (by omega : c = 2 * i + 1 ∨ c = 2 * i + 2) with rfl | rfl
      · exact le_trans (le_of_not_lt (fun hlt => h1 ⟨hcl, hlt⟩)) (le_of_lt h2.2)
      · exact le_refl _
    · rw [if_neg h2]
      left
      rfl

theorem largestIdx_eq_spec (h : List (Entry P α)) (i : Nat)
    (heq : largestIdx h i = i) :
    ∀ c, 0 < c → c < h.length → (c - 1) / 2 = i → pAt h c ≤ pAt h i := by
  unfold largestIdx at heq
  dsimp only at heq
  intro c hc hcl hcp
  rcases (by omega : c = 2 * i + 1 ∨ c = 2 * i + 2) with rfl | rfl
  · by_cases h1 : 2 * i + 1 < h.length ∧ pAt h i < pAt h (2 * i + 1)
    · rw [if_pos h1] at heq
      split_ifs at heq <;> omega
    · exact le_of_not_lt (fun hlt => h1 ⟨hcl, hlt⟩)
  · by_cases h1 : 2 * i + 1 < h.length ∧ pAt h i < pAt h (2 * i + 1)
    · rw [if_pos h1] at heq
      split_ifs at heq <;> omega
    · rw [if_neg h1] at heq
      by_cases h2 : 2 * i + 2 < h.length ∧ pAt h i < pAt h (2 * i + 2)
      · rw [if_pos h2] at heq
        omega
      · exact le_of_not_lt (fun hlt => h2 ⟨hcl, hlt⟩)

theorem heapify_down_length (h : List (Entry P α)) (i : Nat) :
    (heapify_down h i).length = h.length := by
  induction h, i using heapify_down.induct with
  | case1 h i heq => rw [heapify_down.eq_def, if_pos heq]
  | case2 h i hne IH => rw [heapify_down.eq_def, if_neg hne, IH, swapL_length]

theorem mem_heapify_down (h : List (Entry P α)) (i : Nat) (x : Entry P α)
    (hx : x ∈ heapify_down h i) : x ∈ h := by
  induction h, i using heapify_down.induct with
  | case1 h i heq =>
    rw [heapify_down.eq_def, if_pos heq] at hx
    exact hx
  | case2 h i hne IH =>
    rw [heapify_down.eq_def, if_neg hne] at hx
    exact mem_swapL _ _ _ _ (IH hx)

theorem downInv_step (h : List (Entry P α)) (j : Nat) (hj : j < h.length)
    (hne : largestIdx h j ≠ j) (hinv : DownInv h j) :
    DownInv (swapL h j (largestIdx h j)) (largestIdx h j) := by
  obtain ⟨hm1, hm2, hm3, hm4, hm5⟩ := (largestIdx_spec h j).resolve_left hne
  have hsw : ∀ k, pAt (swapL h j (largestIdx h j)) k =
      if k = largestIdx h j then pAt h j
      else if k = j then pAt h (largestIdx h j) else pAt h k :=
    fun k => pAt_swapL h j (largestIdx h j) k hj hm2
  obtain ⟨hA, hB⟩ := hinv
  constructor
  · intro i hi hlen hpne
    rw [swapL_length] at hlen
    rw [hsw i, hsw ((i - 1) / 2)]
    by_cases him : i = largestIdx h j
    · -- the swapped edge itself: the old `j` value moved down to `m`
      subst him
      rw [if_pos rfl, hm3, if_neg (by omega), if_pos rfl]
      exact le_of_lt hm4
    · rw [if_neg him]
      by_cases hij : i = j
      · -- the hole's old position: its parent now bounds the moved-up value
        rw [if_pos hij, if_neg (by omega), if_neg (by omega), hij]
        exact hB (by omega) (largestIdx h j) (by omega) hm2 hm3
      · rw [if_neg hij]
        by_cases hpj : (i - 1) / 2 = j
        · -- sibling of `m` under `j`: bounded by the max-child value
          rw [if_neg (by omega), if_pos hpj]
          exact hm5 i hi hlen hpj
        · -- untouched edge
          rw [if_neg hpne, if_neg hpj]
          exact hA i hi hlen hpj
  · intro hm0 c hc hclen hcpar
    rw [swapL_length] at hclen
    rw [hsw c, if_neg (by omega), if_neg (by omega), hsw _, hm3]
    rw [if_neg (by omega), if_pos rfl]
    exact le_of_le_of_eq (hA c hc hclen (by omega)) (by rw [hcpar])

theorem heapify_down_heapProp (h : List (Entry P α)) (j : Nat) :
    j < h.length → DownInv h j → HeapProp (heapify_down h j) := by
  induction h, j using heapify_down.induct with
  | case1 h j heq =>
    intro hj hinv
    rw [heapify_down.eq_def, if_pos heq]
    intro i hi hlen
    by_cases hpj : (i - 1) / 2 = j
    · exact le_of_le_of_eq (largestIdx_eq_spec h j heq i hi hlen hpj) (by rw [hpj])
    · exact hinv.1 i hi hlen hpj
  | case2 h j hne IH =>
    intro hj hinv
    rw [heapify_down.eq_def, if_neg hne]
    obtain ⟨hm1, hm2, hm3, hm4, hm5⟩ := (largestIdx_spec h j).resolve_left hne
    exact IH (by rw [swapL_length]; omega) (downInv_step h j hj hne hinv)

/-! ## `insert` and `extract_max` preserve the heap property -/

theorem pAt_append_left (h l : List (Entry P α)) (i : Nat) (hi : i < h.length) :
    pAt (h ++ l) i = pAt h i := by
  unfold pAt
  rw [List.getElem?_append_left hi]

theorem insertP_heapProp (st : MaxHeap P α) (hp : HeapProp st.heap) (item : α) (pr : P) :
    HeapProp (st.insertP item pr).heap := by
  unfold MaxHeap.insertP
  dsimp only
  apply heapify_up_heapProp
  · simp
  · constructor
    · intro i hi hlen hne
      simp only [List.length_append, List.length_cons, List.length_nil] at hlen hne
      have hlen' : i < st.heap.length := by omega
      rw [pAt_append_left _ _ _ hlen', pAt_append_left _ _ _ (by omega)]
      exact hp i hi hlen'
    · intro h0 c hc hclen hcp
      simp only [List.length_append, List.length_cons, List.length_nil] at hclen hcp h0
      omega

theorem extractMaxE_mem (st : MaxHeap P α) (e : Entry P α) (st' : MaxHeap P α)
    (hex : st.extractMaxE = some (e, st')) :
    e = eAt st.heap 0 ∧ e ∈ st.heap ∧ ∀ x ∈ st'.heap, x ∈ st.heap := by
  unfold MaxHeap.extractMaxE at hex
  by_cases hemp : st.heap.isEmpty
  · rw [if_pos hemp] at hex
    cases hex
  · rw [if_neg hemp] at hex
    have hn : 0 < st.heap.length := by
      rcases hcl : st.heap with _ | ⟨a, l⟩
      · rw [hcl] at hemp
        simp at hemp
      · simp
    simp only [Option.some.injEq, Prod.mk.injEq] at hex
    obtain ⟨he, hst⟩ := hex
    have h1len : (swapL st.heap 0 (st.heap.length - 1)).length = st.heap.length :=
      swapL_length _ _ _
    have heq : eAt (swapL st.heap 0 (st.heap.length - 1))
        ((swapL st.heap 0 (st.heap.length - 1)).length - 1) = eAt st.heap 0 := by
      rw [h1len, eAt_swapL st.heap 0 (st.heap.length - 1) (st.heap.length - 1)
        (by omega) (by omega), if_pos rfl]
    have he0 : e = eAt st.heap 0 := by rw [← he, heq]
    refine ⟨he0, he0 ▸ eAt_mem st.heap 0 hn, ?_⟩
    intro x hx
    rw [← hst] at hx
    dsimp at hx
    have hx2 : x ∈ (swapL st.heap 0 (st.heap.length - 1)).dropLast := by
      by_cases hd : (swapL st.heap 0 (st.heap.length - 1)).dropLast.isEmpty
      · rw [if_pos hd] at hx
        exact hx
      · rw [if_neg hd] at hx
        exact mem_heapify_down _ _ _ hx
    exact mem_swapL _ _ _ _ ((List.dropLast_sublist _).mem hx2)

theorem extractMaxE_heapProp (st : MaxHeap P α) (e : Entry P α) (st' : MaxHeap P α)
    (hp : HeapProp st.heap) (hex : st.extractMaxE = some (e, st')) :
    HeapProp st'.heap := by
  unfold MaxHeap.extractMaxE at hex
  by_cases hemp : st.heap.isEmpty
  · rw [if_pos hemp] at hex
    cases hex
  · rw [if_neg hemp] at hex
    have hn : 0 < st.heap.length := by
      rcases hcl : st.heap with _ | ⟨a, l⟩
      · rw [hcl] at hemp
        simp at hemp
      · simp
    simp only [Option.some.injEq, Prod.mk.injEq] at hex
    obtain ⟨he, hst⟩ := hex
    rw [← hst]
    dsimp only
    set h1 := swapL st.heap 0 (st.heap.length - 1) with hh1
    have h1len : h1.length = st.heap.length := swapL_length _ _ _
    have hdroplen : h1.dropLast.length = st.heap.length - 1 := by
      rw [List.length_dropLast, h1len]
    have hdrop : ∀ k, k < h1.dropLast.length → pAt h1.dropLast k = pAt h1 k := by
      intro k hk
      unfold pAt
      rw [List.dropLast_eq_take, List.getElem?_take_of_lt (by omega : k < h1.length - 1)]
    by_cases hd : h1.dropLast.isEmpty
    · rw [if_pos hd]
      intro i hi hlen
      have : h1.dropLast.length = 0 := by
        cases hcl : h1.dropLast
        · simp
        · rw [hcl] at hd
          simp at hd
      omega
    · rw [if_neg hd]
      have hdn : 0 < h1.dropLast.length := by
        rcases hcl : h1.dropLast with _ | ⟨a, l⟩
        · rw [hcl] at hd
          simp at hd
        · simp
      apply heapify_down_heapProp _ _ hdn
      constructor
      · intro i hi hlen hpne
        rw [hdrop i hlen, hdrop ((i - 1) / 2) (by omega)]
        have hin : i < st.heap.length - 1 := by omega
        rw [hh1, pAt_swapL st.heap 0 (st.heap.length - 1) i (by omega) (by omega),
          pAt_swapL st.heap 0 (st.heap.length - 1) ((i - 1) / 2) (by omega) (by omega)]
        rw [if_neg (by omega), if_neg (by omega), if_neg (by omega), if_neg (by omega)]
        exact hp i hi (by omega)
      · intro h0
        omega

theorem mem_insertP (st : MaxHeap P α) (item : α) (pr : P) (x : Entry P α)
    (hx : x ∈ (st.insertP item pr).heap) :
    x ∈ st.heap ∨ x = (pr, st.counter, item) := by
  unfold MaxHeap.insertP at hx
  dsimp only at hx
  have hx' := mem_heapify_up _ _ _ hx
  rcases List.mem_append.mp hx' with hmem | hmem
  · exact Or.inl hmem
  · exact Or.inr (List.mem_singleton.mp hmem)

/-! ## Reachable heap states satisfy the heap property; extraction order -/

theorem reachableHeap_heapProp (st : MaxHeap P α) (hr : ReachableHeap st) :
    HeapProp st.heap := by
  induction hr with
  | empty =>
    intro i hi hlen
    simp [MaxHeap.empty] at hlen
  | insert st item pr hr IH => exact insertP_heapProp st IH item pr
  | extract st st' e hr hex IH => exact extractMaxE_heapProp st e st' IH hex

theorem heapProp_root_max (h : List (Entry P α)) (hp : HeapProp h) :
    ∀ i, i < h.length → pAt h i ≤ pAt h 0 := by
  intro i
  induction i using Nat.strong_induction_on with
  | _ i IH =>
    intro hlen
    rcases Nat.eq_zero_or_pos i with rfl | hi
    · exact le_refl _
    · exact le_trans (hp i hi hlen) (IH ((i - 1) / 2) (by omega) (by omega))

theorem heapProp_mem_le_root (h : List (Entry P α)) (hp : HeapProp h) (x : Entry P α)
    (hx : x ∈ h) : x.1 ≤ pAt h 0 := by
  obtain ⟨i, hi, rfl⟩ := List.mem_iff_getElem.mp hx
  rw [← pAt_of_getElem h i hi]
  exact heapProp_root_max h hp i hi

theorem mem_extractEntries (st : MaxHeap P α) (k : Nat) :
    ∀ x ∈ (st.extractEntries k).1, x ∈ st.heap := by
  induction k generalizing st with
  | zero =>
    intro x hx
    simp [MaxHeap.extractEntries] at hx
  | succ k IH =>
    intro x hx
    unfold MaxHeap.extractEntries at hx
    cases hex : st.extractMaxE with
    | none =>
      rw [hex] at hx
      simp at hx
    | some p =>
      rw [hex] at hx
      obtain ⟨e, st'⟩ := p
      dsimp at hx
      rcases List.mem_cons.mp hx with rfl | hx'
      · exact (extractMaxE_mem st x st' hex).2.1
      · exact (extractMaxE_mem st e st' hex).2.2 x (IH st' x hx')

theorem extractEntries_sorted (st : MaxHeap P α) (hp : HeapProp st.heap) (k : Nat) :
    ((st.extractEntries k).1.map (fun e => e.1)).Sorted (· ≥ ·) := by
  induction k generalizing st with
  | zero => simp [MaxHeap.extractEntries]
  | succ k IH =>
    unfold MaxHeap.extractEntries
    cases hex : st.extractMaxE with
    | none => simp
    | some p =>
      obtain ⟨e, st'⟩ := p
      dsimp only
      rw [List.map_cons, List.sorted_cons]
      constructor
      · intro b hb
        obtain ⟨x, hx, rfl⟩ := List.mem_map.mp hb
        have hxh : x ∈ st.heap :=
          (extractMaxE_mem st e st' hex).2.2 x (mem_extractEntries st' k x hx)
        have hle : x.1 ≤ pAt st.heap 0 := heapProp_mem_le_root _ hp x hxh
        have he : e = eAt st.heap 0 := (extractMaxE_mem st e st' hex).1
        rw [he, ← pAt_eq_eAt]
        exact hle
      · exact IH st' (extractMaxE_heapProp st e st' hp hex)

theorem build_heapProp (ops : List (P × α)) : HeapProp (MaxHeap.build ops).heap := by
  unfold MaxHeap.build
  suffices h : ∀ st : MaxHeap P α, HeapProp st.heap →
      HeapProp (ops.foldl (fun st op => st.insertP op.2 op.1) st).heap by
    apply h
    intro i hi hlen
    simp [MaxHeap.empty] at hlen
  induction ops with
  | nil => exact fun st hp => hp
  | cons op rest IH => exact fun st hp => IH _ (insertP_heapProp st hp op.2 op.1)

theorem reachable_build (ops : List (P × α)) : ReachableHeap (MaxHeap.build ops) := by
  unfold MaxHeap.build
  suffices h : ∀ st : MaxHeap P α, ReachableHeap st →
      ReachableHeap (ops.foldl (fun st op => st.insertP op.2 op.1) st) by
    exact h _ ReachableHeap.empty
  induction ops with
  | nil => exact fun st hr => hr
  | cons op rest IH => exact fun st hr => IH _ (ReachableHeap.insert st op.2 op.1 hr)

/-! ## Claim C2 -/

set_option maxRecDepth 40000 in
unseal heapify_up heapify_down in
/-- C2 (counterexample): the extraction order is NOT first-in-first-out among
equal priorities.  Inserting `"a"`, `"b"`, `"c"` all with priority `1` and
extracting three times yields `["a", "c", "b"]` — `"c"` (inserted third) is
extracted before `"b"` (inserted second) — not the FIFO order
`["a", "b", "c"]` the claim demands. -/
theorem c2_counterexample :
    (MaxHeap.build [((1 : Int), "a"), (1, "b"), (1, "c")]).extractItems 3 = ["a", "c", "b"] ∧
    (["a", "c", "b"] : List String) ≠ ["a", "b", "c"] := by
  exact ⟨by rfl, by decide⟩

set_option maxRecDepth 40000 in
unseal heapify_up heapify_down in
/-- C2 (amended): for every sequence of `MaxHeap` inserts followed by
repeated `extract_max`, the extracted priority sequence is non-increasing;
ties among equal priorities are broken in no guaranteed order (the insertion
counter is stored but never compared), though on the spec's concrete example
`[(5,"a"), (9,"b"), (1,"c"), (9,"d")]` the two priority-9 items do come out
in insertion order: the items are extracted as `["b", "d", "a", "c"]`. -/
theorem c2_extraction_nonincreasing :
    (∀ (P α : Type) [LinearOrder P] [Inhabited P] [Inhabited α]
      (ops : List (P × α)) (k : Nat),
      (((MaxHeap.build ops).extractEntries k).1.map (fun e => e.1)).Sorted (· ≥ ·)) ∧
    (MaxHeap.build [((5 : Int), "a"), (9, "b"), (1, "c"), (9, "d")]).extractItems 4 =
      ["b", "d", "a", "c"] := by
  constructor
  · intro P α _ _ _ ops k
    exact extractEntries_sorted _ (build_heapProp ops) k
  · rfl

/-- C2 (witness): the concrete two-element build extracts priorities in
non-increasing order. -/
theorem c2_witness :
    (((MaxHeap.build [((5 : Int), "a"), (9, "b")]).extractEntries 2).1.map
      (fun e => e.1)).Sorted (· ≥ ·) :=
  c2_extraction_nonincreasing.1 Int String [((5 : Int), "a"), (9, "b")] 2

/-! ## Claim C7 -/

set_option maxRecDepth 40000 in
unseal heapify_up heapify_down in
/-- The concrete `extract_max` step reaching the state
`[(1, 2, "c"), (1, 1, "b")]` from three equal-priority inserts. -/
theorem equal_priority_extract_step :
    (MaxHeap.build [((1 : Int), "a"), (1, "b"), (1, "c")]).extractMaxE =
      some (((1 : Int), 0, "a"), ⟨[((1 : Int), 2, "c"), (1, 1, "b")], 3⟩) := by
  rfl

/-- C7: after any sequence of `insert` and `extract_max` operations the
internal array satisfies the max-heap property over priorities (each non-root
index's priority is at most its parent's at `(i-1)//2`); and the insertion
sequence number is not a secondary heap key: a reachable state exists in
which a child and its parent have equal priorities while the child carries
the smaller (earlier) insertion counter. -/
theorem c7_heap_invariant :
    (∀ (P α : Type) [LinearOrder P] [Inhabited P] [Inhabited α]
      (st : MaxHeap P α), ReachableHeap st → HeapProp st.heap) ∧
    (∃ st : MaxHeap Int String, ReachableHeap st ∧ ∃ i, 0 < i ∧ i < st.heap.length ∧
      pAt st.heap i = pAt st.heap ((i - 1) / 2) ∧
      (eAt st.heap i).2.1 < (eAt st.heap ((i - 1) / 2)).2.1) := by
  constructor
  · intro P α _ _ _ st hr
    exact reachableHeap_heapProp st hr
  · refine ⟨⟨[((1 : Int), 2, "c"), (1, 1, "b")], 3⟩, ?_, 1, by omega, by decide, by decide,
      by decide⟩
    exact ReachableHeap.extract (MaxHeap.build [((1 : Int), "a"), (1, "b"), (1, "c")]) _
      ((1 : Int), 0, "a") (reachable_build _) equal_priority_extract_step

/-- C7 (witness): the heap property holds at the concrete reachable state
built by inserting priorities 5 and 9. -/
theorem c7_witness : HeapProp (MaxHeap.build [((5 : Int), "x"), (9, "y")]).heap :=
  c7_heap_invariant.1 Int String (MaxHeap.build [((5 : Int), "x"), (9, "y")])
    (reachable_build _)

/-! ## Claim C10 -/

theorem foldl_insertOpt_heapProp (xs : List Int) :
    HeapProp ((xs.foldl (fun st x => st.insertOpt x none) (MaxHeap.empty Int Int)).heap) := by
  suffices h : ∀ st : MaxHeap Int Int, HeapProp st.heap →
      HeapProp ((xs.foldl (fun st x => st.insertOpt x none) st).heap) by
    apply h
    intro i hi hlen
    simp [MaxHeap.empty] at hlen
  induction xs with
  | nil => exact fun st hp => hp
  | cons x rest IH => exact fun st hp => IH _ (insertP_heapProp st hp x x)

theorem foldl_insertOpt_bare (xs : List Int) :
    ∀ e ∈ (xs.foldl (fun st x => st.insertOpt x none) (MaxHeap.empty Int Int)).heap,
      e.1 = e.2.2 := by
  suffices h : ∀ st : MaxHeap Int Int, (∀ e ∈ st.heap, e.1 = e.2.2) →
      ∀ e ∈ (xs.foldl (fun st x => st.insertOpt x none) st).heap, e.1 = e.2.2 by
    apply h
    intro e he
    simp [MaxHeap.empty] at he
  induction xs with
  | nil => exact fun st hp => hp
  | cons x rest IH =>
    intro st hp
    apply IH
    intro e he
    rcases mem_insertP st x x e he with hmem | rfl
    · exact hp e hmem
    · rfl

/-- C10: `insert`'s priority argument is optional — with the priority
omitted/`None` the item itself is used as the priority, so a heap built from
bare comparable values extracts the values themselves in non-increasing
order. -/
theorem c10_default_priority :
    (∀ (P : Type) [LinearOrder P] [Inhabited P] (st : MaxHeap P P) (x : P),
      st.insertOpt x none = st.insertP x x) ∧
    (∀ (xs : List Int) (k : Nat),
      ((xs.foldl (fun st x => st.insertOpt x none)
        (MaxHeap.empty Int Int)).extractItems k).Sorted (· ≥ ·)) := by
  constructor
  · intro P _ _ st x
    rfl
  · intro xs k
    unfold MaxHeap.extractItems
    have hmap :
        ((((xs.foldl (fun st x => st.insertOpt x none)
          (MaxHeap.empty Int Int)).extractEntries k).1).map (fun e => e.2.2)) =
        ((((xs.foldl (fun st x => st.insertOpt x none)
          (MaxHeap.empty Int Int)).extractEntries k).1).map (fun e => e.1)) := by
      apply List.map_congr_left
      intro e he
      exact (foldl_insertOpt_bare xs e (mem_extractEntries _ k e he)).symm
    rw [hmap]
    exact extractEntries_sorted _ (foldl_insertOpt_heapProp xs) k

set_option maxRecDepth 40000 in
unseal heapify_up heapify_down in
/-- C10 (witness): concrete bare-value heap `[3, 9, 5]` extracts
`[9, 5, 3]`. -/
theorem c10_witness :
    (([3, 9, 5] : List Int).foldl (fun st x => st.insertOpt x none)
      (MaxHeap.empty Int Int)).extractItems 3 = [9, 5, 3] ∧
    (((([3, 9, 5] : List Int).foldl (fun st x => st.insertOpt x none)
      (MaxHeap.empty Int Int)).extractItems 3).Sorted (· ≥ ·)) :=
  ⟨by rfl, c10_default_priority.2 [3, 9, 5] 3⟩

/-! ## HashMap verification: chains, the bucket invariant, operations -/

theorem getD_set_self {γ : Type} (l : List γ) (i : Nat) (x d : γ) (hi : i < l.length) :
    (l.set i x).getD i d = x := by
  rw [List.getD_eq_getElem?_getD, List.getElem?_set, if_pos rfl, if_pos hi]
  rfl

theorem getD_set_ne {γ : Type} (l : List γ) (i j : Nat) (x d : γ) (h : i ≠ j) :
    (l.set i x).getD j d = l.getD j d := by
  rw [List.getD_eq_getElem?_getD, List.getElem?_set, if_neg h, ← List.getD_eq_getElem?_getD]

theorem getD_replicate {γ : Type} (n i : Nat) (x : γ) :
    (List.replicate n x).getD i x = x := by
  rw [List.getD_eq_getElem?_getD]
  by_cases hi : i < n
  · rw [List.getElem?_replicate, if_pos hi]
    rfl
  · rw [List.getElem?_eq_none (by simpa using hi)]
    rfl

theorem chainHas_iff_mem (c : List (K × V)) (k : K) :
    chainHas c k = true ↔ k ∈ c.map Prod.fst := by
  induction c with
  | nil => simp [chainHas]
  | cons p rest IH =>
    unfold chainHas
    by_cases hp : p.1 = k
    · simp [hp]
    · simp only [List.map_cons, List.mem_cons]
      rw [if_neg hp]
      constructor
      · intro h
        exact Or.inr (IH.mp h)
      · intro h
        rcases h with h | h
        · exact absurd h.symm hp
        · exact IH.mpr h

theorem chainHas_iff_lookup (c : List (K × V)) (k : K) :
    chainHas c k = true ↔ (chainLookup c k).isSome := by
  induction c with
  | nil => simp [chainHas, chainLookup]
  | cons p rest IH =>
    unfold chainHas chainLookup
    by_cases hp : p.1 = k
    · simp [hp]
    · rw [if_neg hp, if_neg hp]
      exact IH

theorem chainLookup_cons_self (a : K) (b : V) (rest : List (K × V)) (k : K) (ha : a = k) :
    chainLookup ((a, b) :: rest) k = some b := by
  simp only [chainLookup, if_pos ha]

theorem chainUpdate_keys (c : List (K × V)) (k : K) (v : V) :
    (chainUpdate c k v).map Prod.fst = c.map Prod.fst := by
  induction c with
  | nil => rfl
  | cons p rest IH =>
    unfold chainUpdate
    by_cases hp : p.1 = k
    · rw [if_pos hp]
      rfl
    · rw [if_neg hp]
      simp [IH]

theorem chainLookup_update_self (c : List (K × V)) (k : K) (v : V)
    (hc : chainHas c k = true) : chainLookup (chainUpdate c k v) k = some v := by
  induction c with
  | nil => simp [chainHas] at hc
  | cons p rest IH =>
    obtain ⟨a, b⟩ := p
    simp only [chainHas] at hc
    simp only [chainUpdate]
    by_cases hp : a = k
    · rw [if_pos hp]
      exact chainLookup_cons_self a v rest k hp
    · rw [if_neg hp] at hc ⊢
      simp only [chainLookup, if_neg hp]
      exact IH hc

theorem chainLookup_update_ne (c : List (K × V)) (k k' : K) (v : V) (hne : k' ≠ k) :
    chainLookup (chainUpdate c k v) k' = chainLookup c k' := by
  induction c with
  | nil => rfl
  | cons p rest IH =>
    obtain ⟨a, b⟩ := p
    simp only [chainUpdate]
    by_cases hp : a = k
    · rw [if_pos hp]
      simp only [chainLookup]
      rw [if_neg (by rw [hp]; exact fun h => hne h.symm),
        if_neg (by rw [hp]; exact fun h => hne h.symm)]
    · rw [if_neg hp]
      simp only [chainLookup]
      by_cases hp' : a = k'
      · rw [if_pos hp', if_pos hp']
      · rw [if_neg hp', if_neg hp']
        exact IH

theorem mem_chainRemove (c : List (K × V)) (k : K) (p : K × V)
    (hp : p ∈ chainRemove c k) : p ∈ c := by
  induction c with
  | nil => exact hp
  | cons q rest IH =>
    obtain ⟨a, b⟩ := q
    simp only [chainRemove] at hp
    by_cases hq : a = k
    · rw [if_pos hq] at hp
      exact List.mem_cons_of_mem (a, b) hp
    · rw [if_neg hq] at hp
      rcases List.mem_cons.mp hp with rfl | hp'
      · exact List.mem_cons_self _ _
      · exact List.mem_cons_of_mem (a, b) (IH hp')

theorem chainRemove_keys_sublist (c : List (K × V)) (k : K) :
    ((chainRemove c k).map Prod.fst).Sublist (c.map Prod.fst) := by
  induction c with
  | nil => simp [chainRemove]
  | cons q rest IH =>
    obtain ⟨a, b⟩ := q
    simp only [chainRemove]
    by_cases hq : a = k
    · rw [if_pos hq]
      simp only [List.map_cons]
      exact List.sublist_cons_self _ _
    · rw [if_neg hq]
      simp only [List.map_cons]
      exact IH.cons₂ a

theorem chainHas_false_of_not_mem (c : List (K × V)) (k : K)
    (h : k ∉ c.map Prod.fst) : chainHas c k = false := by
  rcases hc : chainHas c k with _ | _
  · rfl
  · exact absurd ((chainHas_iff_mem c k).mp hc) h

theorem chainHas_remove_self (c : List (K × V)) (k : K)
    (hnd : (c.map Prod.fst).Nodup) : chainHas (chainRemove c k) k = false := by
  induction c with
  | nil => rfl
  | cons q rest IH =>
    obtain ⟨a, b⟩ := q
    simp only [List.map_cons, List.nodup_cons] at hnd
    simp only [chainRemove]
    by_cases hq : a = k
    · rw [if_pos hq]
      apply chainHas_false_of_not_mem
      rw [← hq]
      exact hnd.1
    · rw [if_neg hq]
      simp only [chainHas, if_neg hq]
      exact IH hnd.2

theorem chainLookup_remove_ne (c : List (K × V)) (k k' : K) (hne : k' ≠ k) :
    chainLookup (chainRemove c k) k' = chainLookup c k' := by
  induction c with
  | nil => rfl
  | cons q rest IH =>
    obtain ⟨a, b⟩ := q
    simp only [chainRemove]
    by_cases hq : a = k
    · rw [if_pos hq]
      simp only [chainLookup]
      rw [if_neg (by rw [hq]; exact fun h => hne h.symm)]
    · rw [if_neg hq]
      simp only [chainLookup]
      by_cases hq' : a = k'
      · rw [if_pos hq', if_pos hq']
      · rw [if_neg hq', if_neg hq']
        exact IH

/-- The hash-table invariant: positive capacity matching the bucket-array
length, every chained pair sitting in the bucket its key hashes to, and no
key chained twice within a bucket. -/
def HMInv (hf : K → Nat) (m : HashMap K V) : Prop :=
  0 < m.capacity ∧ m.buckets.length = m.capacity ∧
  (∀ i, i < m.buckets.length → ∀ p ∈ m.buckets.getD i [], hf p.1 % m.capacity = i) ∧
  (∀ i, i < m.buckets.length → ((m.buckets.getD i []).map Prod.fst).Nodup)

theorem emptyHM_inv (hf : K → Nat) : HMInv hf (HashMap.emptyHM K V) := by
  refine ⟨by norm_num [HashMap.emptyHM], by simp [HashMap.emptyHM], ?_, ?_⟩
  · intro i hi p hp
    rw [show (HashMap.emptyHM K V).buckets = List.replicate 16 [] from rfl,
      getD_replicate] at hp
    simp at hp
  · intro i hi
    rw [show (HashMap.emptyHM K V).buckets = List.replicate 16 [] from rfl,
      getD_replicate]
    simp

theorem setRaw_capacity (hf : K → Nat) (m : HashMap K V) (k : K) (v : V) :
    (m.setRaw hf k v).capacity = m.capacity := by
  unfold HashMap.setRaw
  dsimp only
  split_ifs <;> rfl

theorem setRaw_buckets_length (hf : K → Nat) (m : HashMap K V) (k : K) (v : V) :
    (m.setRaw hf k v).buckets.length = m.buckets.length := by
  unfold HashMap.setRaw
  dsimp only
  split_ifs <;> simp

theorem getItem?_setRaw (hf : K → Nat) (m : HashMap K V) (k k' : K) (v : V)
    (hcap : 0 < m.capacity) (hlen : m.buckets.length = m.capacity) :
    (m.setRaw hf k v).getItem? hf k' = if k' = k then some v else m.getItem? hf k' := by
  have hik : hf k % m.capacity < m.buckets.length := by
    rw [hlen]
    exact Nat.mod_lt _ hcap
  unfold HashMap.setRaw HashMap.getItem?
  dsimp only
  by_cases hhas : chainHas (m.buckets.getD (hf k % m.capacity) []) k
  · rw [if_pos hhas]
    dsimp only
    by_cases hk : k' = k
    · subst hk
      rw [if_pos rfl, getD_set_self _ _ _ _ hik]
      exact chainLookup_update_self _ _ _ hhas
    · rw [if_neg hk]
      by_cases hb : hf k' % m.capacity = hf k % m.capacity
      · rw [hb, getD_set_self _ _ _ _ hik]
        exact chainLookup_update_ne _ _ _ _ hk
      · rw [getD_set_ne _ _ _ _ _ (fun h => hb h.symm)]
  · rw [if_neg hhas]
    dsimp only
    by_cases hk : k' = k
    · subst hk
      rw [if_pos rfl, getD_set_self _ _ _ _ hik]
      exact chainLookup_cons_self _ _ _ _ rfl
    · rw [if_neg hk]
      by_cases hb : hf k' % m.capacity = hf k % m.capacity
      · rw [hb, getD_set_self _ _ _ _ hik]
        simp only [chainLookup]
        rw [if_neg (fun h => hk h.symm)]
      · rw [getD_set_ne _ _ _ _ _ (fun h => hb h.symm)]

theorem setRaw_inv (hf : K → Nat) (m : HashMap K V) (k : K) (v : V)
    (hinv : HMInv hf m) : HMInv hf (m.setRaw hf k v) := by
  obtain ⟨hcap, hlen, hhash, hnd⟩ := hinv
  have hik : hf k % m.capacity < m.buckets.length := by
    rw [hlen]
    exact Nat.mod_lt _ hcap
  unfold HashMap.setRaw
  dsimp only
  by_cases hhas : chainHas (m.buckets.getD (hf k % m.capacity) []) k
  · rw [if_pos hhas]
    refine ⟨hcap, by simpa using hlen, ?_, ?_⟩
    · intro i hi p hp
      simp only [List.length_set] at hi
      by_cases hb : i = hf k % m.capacity
      · subst hb
        rw [getD_set_self _ _ _ _ hik] at hp
        have : p.1 ∈ (m.buckets.getD (hf k % m.capacity) []).map Prod.fst := by
          rw [← chainUpdate_keys _ k v]
          exact List.mem_map_of_mem Prod.fst hp
        obtain ⟨q, hq, hqk⟩ := List.mem_map.mp this
        rw [show p.1 = q.1 from hqk.symm]
        exact hhash _ hi q hq
      · rw [getD_set_ne _ _ _ _ _ (fun h => hb h.symm)] at hp
        exact hhash i hi p hp
    · intro i hi
      simp only [List.length_set] at hi
      by_cases hb : i = hf k % m.capacity
      · subst hb
        rw [getD_set_self _ _ _ _ hik, chainUpdate_keys]
        exact hnd _ hi
      · rw [getD_set_ne _ _ _ _ _ (fun h => hb h.symm)]
        exact hnd i hi
  · rw [if_neg hhas]
    refine ⟨hcap, by simpa using hlen, ?_, ?_⟩
    · intro i hi p hp
      simp only [List.length_set] at hi
      by_cases hb : i = hf k % m.capacity
      · subst hb
        rw [getD_set_self _ _ _ _ hik] at hp
        rcases List.mem_cons.mp hp with rfl | hp'
        · rfl
        · exact hhash _ hi p hp'
      · rw [getD_set_ne _ _ _ _ _ (fun h => hb h.symm)] at hp
        exact hhash i hi p hp
    · intro i hi
      simp only [List.length_set] at hi
      by_cases hb : i = hf k % m.capacity
      · subst hb
        rw [getD_set_self _ _ _ _ hik]
        simp only [List.map_cons, List.nodup_cons]
        refine ⟨?_, hnd _ hi⟩
        intro hmem
        rw [(chainHas_iff_mem _ _).mpr hmem] at hhas
        exact hhas rfl
      · rw [getD_set_ne _ _ _ _ _ (fun h => hb h.symm)]
        exact hnd i hi

theorem lastVal_foldl (l : List (K × V)) (k : K) (acc : Option V) :
    l.foldl (fun acc kv => if kv.1 = k then some kv.2 else acc) acc
      = (lastVal l k).or acc := by
  induction l generalizing acc with
  | nil => rfl
  | cons p rest IH =>
    show rest.foldl _ (if p.1 = k then some p.2 else acc) = (lastVal (p :: rest) k).or acc
    have hcons : lastVal (p :: rest) k
        = (lastVal rest k).or (if p.1 = k then some p.2 else none) := by
      show rest.foldl _ (if p.1 = k then some p.2 else none) = _
      exact IH _
    rw [IH, hcons, Option.or_assoc]
    congr 1
    by_cases hp : p.1 = k
    · rw [if_pos hp, if_pos hp]
      rfl
    · rw [if_neg hp, if_neg hp]
      rfl

theorem lastVal_append (l1 l2 : List (K × V)) (k : K) :
    lastVal (l1 ++ l2) k = (lastVal l2 k).or (lastVal l1 k) := by
  show (l1 ++ l2).foldl _ none = _
  rw [List.foldl_append]
  exact lastVal_foldl l2 k _

theorem lastVal_eq_none (l : List (K × V)) (k : K) (h : ∀ p ∈ l, p.1 ≠ k) :
    lastVal l k = none := by
  induction l with
  | nil => rfl
  | cons p rest IH =>
    show rest.foldl _ (if p.1 = k then some p.2 else none) = none
    rw [if_neg (h p (List.mem_cons_self _ _))]
    exact IH (fun q hq => h q (List.mem_cons_of_mem p hq))

theorem lastVal_eq_chainLookup (c : List (K × V)) (k : K)
    (hnd : (c.map Prod.fst).Nodup) : lastVal c k = chainLookup c k := by
  induction c with
  | nil => rfl
  | cons p rest IH =>
    obtain ⟨a, b⟩ := p
    simp only [List.map_cons, List.nodup_cons] at hnd
    have hcons : lastVal ((a, b) :: rest) k
        = (lastVal rest k).or (if a = k then some b else none) := by
      show rest.foldl _ (if a = k then some b else none) = _
      exact lastVal_foldl rest k _
    rw [hcons]
    simp only [chainLookup]
    by_cases ha : a = k
    · rw [if_pos ha, if_pos ha]
      rw [lastVal_eq_none rest k ?_]
      · rfl
      · intro q hq hqk
        exact hnd.1 (by rw [ha, ← hqk]; exact List.mem_map_of_mem Prod.fst hq)
    · rw [if_neg ha, if_neg ha, Option.or_none]
      exact IH hnd.2

theorem getItem?_eq_lastVal_flatten (hf : K → Nat) (m : HashMap K V)
    (hinv : HMInv hf m) (k : K) :
    lastVal m.buckets.flatten k = m.getItem? hf k := by
  obtain ⟨hcap, hlen, hhash, hnd⟩ := hinv
  have hik : hf k % m.capacity < m.buckets.length := by
    rw [hlen]
    exact Nat.mod_lt _ hcap
  have hsplit : m.buckets
      = m.buckets.take (hf k % m.capacity)
        ++ (m.buckets[hf k % m.capacity] :: m.buckets.drop (hf k % m.capacity + 1)) := by
    rw [← List.drop_eq_getElem_cons hik, List.take_append_drop]
  have hother : ∀ (j : Nat), j < m.buckets.length → j ≠ hf k % m.capacity →
      ∀ p ∈ m.buckets.getD j [], p.1 ≠ k := by
    intro j hj hne p hp hpk
    apply hne
    rw [← hhash j hj p hp, hpk]
  conv_lhs => rw [hsplit]
  rw [List.flatten_append, lastVal_append, List.flatten_cons, lastVal_append]
  have htake : lastVal (m.buckets.take (hf k % m.capacity)).flatten k = none := by
    apply lastVal_eq_none
    intro p hp
    obtain ⟨b, hb, hpb⟩ := List.mem_flatten.mp hp
    obtain ⟨j, hj, hjb⟩ := List.mem_iff_getElem.mp hb
    have hjlen : j < m.buckets.length := by
      have := hj
      simp only [List.length_take] at this
      omega
    have hjval : b = m.buckets.getD j [] := by
      rw [List.getD_eq_getElem _ _ hjlen, ← hjb, List.getElem_take]
    exact hother j hjlen (by simp only [List.length_take] at hj; omega)
      p (by rw [← hjval]; exact hpb)
  have hdrop : lastVal (m.buckets.drop (hf k % m.capacity + 1)).flatten k = none := by
    apply lastVal_eq_none
    intro p hp
    obtain ⟨b, hb, hpb⟩ := List.mem_flatten.mp hp
    obtain ⟨j, hj, hjb⟩ := List.mem_iff_getElem.mp hb
    have hjlen : hf k % m.capacity + 1 + j < m.buckets.length := by
      have := hj
      simp only [List.length_drop] at this
      omega
    have hjval : b = m.buckets.getD (hf k % m.capacity + 1 + j) [] := by
      rw [List.getD_eq_getElem _ _ hjlen, ← hjb, List.getElem_drop]
    exact hother _ hjlen (by omega) p (by rw [← hjval]; exact hpb)
  rw [htake, hdrop, Option.or_none, Option.none_or]
  unfold HashMap.getItem?
  rw [List.getD_eq_getElem _ _ hik]
  exact lastVal_eq_chainLookup _ k (by
    have := hnd _ hik
    rw [List.getD_eq_getElem _ _ hik] at this
    exact this)

theorem getItem?_foldl_setRaw (hf : K → Nat) (l : List (K × V)) (k : K) :
    ∀ (m0 : HashMap K V), 0 < m0.capacity → m0.buckets.length = m0.capacity →
    (l.foldl (fun acc kv => acc.setRaw hf kv.1 kv.2) m0).getItem? hf k
      = (lastVal l k).or (m0.getItem? hf k) := by
  induction l with
  | nil =>
    intro m0 hcap hlen
    rfl
  | cons p rest IH =>
    intro m0 hcap hlen
    show (rest.foldl _ (m0.setRaw hf p.1 p.2)).getItem? hf k = _
    rw [IH (m0.setRaw hf p.1 p.2) (by rw [setRaw_capacity]; exact hcap)
        (by rw [setRaw_buckets_length, setRaw_capacity]; exact hlen),
      getItem?_setRaw hf m0 p.1 k p.2 hcap hlen]
    have hcons : lastVal (p :: rest) k
        = (lastVal rest k).or (if p.1 = k then some p.2 else none) := by
      show rest.foldl _ (if p.1 = k then some p.2 else none) = _
      exact lastVal_foldl rest k _
    rw [hcons, Option.or_assoc]
    congr 1
    by_cases hp : p.1 = k
    · rw [if_pos hp, if_pos (hp.symm)]
      rfl
    · rw [if_neg hp, if_neg (fun h => hp h.symm)]
      rfl

theorem foldl_setRaw_inv (hf : K → Nat) (l : List (K × V)) :
    ∀ (m0 : HashMap K V), HMInv hf m0 →
      HMInv hf (l.foldl (fun acc kv => acc.setRaw hf kv.1 kv.2) m0) := by
  induction l with
  | nil => exact fun m0 h => h
  | cons p rest IH => exact fun m0 h => IH _ (setRaw_inv hf m0 p.1 p.2 h)

theorem replicate_table_inv (hf : K → Nat) (n : Nat) (hn : 0 < n) :
    HMInv hf (⟨n, List.replicate n [], 0⟩ : HashMap K V) := by
  refine ⟨hn, by simp, ?_, ?_⟩
  · intro i hi p hp
    rw [show (⟨n, List.replicate n [], 0⟩ : HashMap K V).buckets = List.replicate n []
      from rfl, getD_replicate] at hp
    simp at hp
  · intro i hi
    rw [show (⟨n, List.replicate n [], 0⟩ : HashMap K V).buckets = List.replicate n []
      from rfl, getD_replicate]
    simp

theorem getItem?_replicate_table (hf : K → Nat) (n : Nat) (k : K) :
    (⟨n, List.replicate n [], 0⟩ : HashMap K V).getItem? hf k = none := by
  unfold HashMap.getItem?
  rw [show (⟨n, List.replicate n [], 0⟩ : HashMap K V).buckets = List.replicate n []
    from rfl, getD_replicate]
  rfl

theorem getItem?_resize (hf : K → Nat) (m : HashMap K V) (hinv : HMInv hf m) (k : K) :
    (m.resizeHM hf).getItem? hf k = m.getItem? hf k := by
  unfold HashMap.resizeHM HashMap.entries
  have h1 : 0 < m.capacity * 2 := by
    have := hinv.1
    omega
  rw [getItem?_foldl_setRaw hf _ k ⟨m.capacity * 2, List.replicate (m.capacity * 2) [], 0⟩
      h1 (by simp), getItem?_replicate_table, Option.or_none]
  exact getItem?_eq_lastVal_flatten hf m hinv k

theorem resize_inv (hf : K → Nat) (m : HashMap K V) (hinv : HMInv hf m) :
    HMInv hf (m.resizeHM hf) := by
  unfold HashMap.resizeHM
  have h1 : 0 < m.capacity * 2 := by
    have := hinv.1
    omega
  exact foldl_setRaw_inv hf _ _ (replicate_table_inv hf _ h1)

theorem getItem?_setItem (hf : K → Nat) (m : HashMap K V) (hinv : HMInv hf m)
    (k k' : K) (v : V) :
    (m.setItem hf k v).getItem? hf k' = if k' = k then some v else m.getItem? hf k' := by
  unfold HashMap.setItem
  dsimp only
  by_cases hload : 4 * (m.setRaw hf k v).size > 3 * (m.setRaw hf k v).capacity
  · rw [if_pos hload, getItem?_resize hf _ (setRaw_inv hf m k v hinv) k',
      getItem?_setRaw hf m k k' v hinv.1 hinv.2.1]
  · rw [if_neg hload, getItem?_setRaw hf m k k' v hinv.1 hinv.2.1]

theorem setItem_inv (hf : K → Nat) (m : HashMap K V) (hinv : HMInv hf m) (k : K) (v : V) :
    HMInv hf (m.setItem hf k v) := by
  unfold HashMap.setItem
  dsimp only
  by_cases hload : 4 * (m.setRaw hf k v).size > 3 * (m.setRaw hf k v).capacity
  · rw [if_pos hload]
    exact resize_inv hf _ (setRaw_inv hf m k v hinv)
  · rw [if_neg hload]
    exact setRaw_inv hf m k v hinv

theorem chainLookup_isSome_eq_chainHas (c : List (K × V)) (k : K) :
    (chainLookup c k).isSome = chainHas c k := by
  induction c with
  | nil => rfl
  | cons p rest IH =>
    obtain ⟨a, b⟩ := p
    simp only [chainLookup, chainHas]
    by_cases ha : a = k
    · rw [if_pos ha, if_pos ha]
      rfl
    · rw [if_neg ha, if_neg ha]
      exact IH

theorem getItem?_isSome_eq_containsKey (hf : K → Nat) (m : HashMap K V) (k : K) :
    (m.getItem? hf k).isSome = m.containsKey hf k :=
  chainLookup_isSome_eq_chainHas _ k

theorem delItem?_inv (hf : K → Nat) (m m' : HashMap K V) (hinv : HMInv hf m) (k : K)
    (hdel : m.delItem? hf k = some m') : HMInv hf m' := by
  obtain ⟨hcap, hlen, hhash, hnd⟩ := hinv
  have hik : hf k % m.capacity < m.buckets.length := by
    rw [hlen]
    exact Nat.mod_lt _ hcap
  unfold HashMap.delItem? at hdel
  dsimp only at hdel
  split_ifs at hdel with hhas
  · simp only [Option.some.injEq] at hdel
    rw [← hdel]
    refine ⟨hcap, by simpa using hlen, ?_, ?_⟩
    · intro i hi p hp
      simp only [List.length_set] at hi
      by_cases hb : i = hf k % m.capacity
      · subst hb
        rw [getD_set_self _ _ _ _ hik] at hp
        exact hhash _ hi p (mem_chainRemove _ _ _ hp)
      · rw [getD_set_ne _ _ _ _ _ (fun h => hb h.symm)] at hp
        exact hhash i hi p hp
    · intro i hi
      simp only [List.length_set] at hi
      by_cases hb : i = hf k % m.capacity
      · subst hb
        rw [getD_set_self _ _ _ _ hik]
        exact (chainRemove_keys_sublist _ _).nodup (hnd _ hi)
      · rw [getD_set_ne _ _ _ _ _ (fun h => hb h.symm)]
        exact hnd i hi

theorem delItem?_gone (hf : K → Nat) (m m' : HashMap K V) (hinv : HMInv hf m) (k : K)
    (hdel : m.delItem? hf k = some m') :
    m'.containsKey hf k = false ∧ m'.getItem? hf k = none := by
  obtain ⟨hcap, hlen, hhash, hnd⟩ := hinv
  have hik : hf k % m.capacity < m.buckets.length := by
    rw [hlen]
    exact Nat.mod_lt _ hcap
  unfold HashMap.delItem? at hdel
  dsimp only at hdel
  split_ifs at hdel with hhas
  · simp only [Option.some.injEq] at hdel
    have hcontains : m'.containsKey hf k = false := by
      rw [← hdel]
      unfold HashMap.containsKey
      dsimp only
      rw [getD_set_self _ _ _ _ hik]
      exact chainHas_remove_self _ k (hnd _ hik)
    refine ⟨hcontains, ?_⟩
    have := getItem?_isSome_eq_containsKey hf m' k
    rw [hcontains] at this
    cases hx : m'.getItem? hf k with
    | none => rfl
    | some v =>
      rw [hx] at this
      simp at this

theorem delItem?_getItem_ne (hf : K → Nat) (m m' : HashMap K V) (hinv : HMInv hf m)
    (k k' : K) (hne : k ≠ k') (hdel : m.delItem? hf k' = some m') :
    m'.getItem? hf k = m.getItem? hf k := by
  obtain ⟨hcap, hlen, hhash, hnd⟩ := hinv
  have hik' : hf k' % m.capacity < m.buckets.length := by
    rw [hlen]
    exact Nat.mod_lt _ hcap
  unfold HashMap.delItem? at hdel
  dsimp only at hdel
  split_ifs at hdel with hhas
  · simp only [Option.some.injEq] at hdel
    rw [← hdel]
    unfold HashMap.getItem?
    dsimp only
    by_cases hb : hf k % m.capacity = hf k' % m.capacity
    · rw [hb, getD_set_self _ _ _ _ hik']
      exact chainLookup_remove_ne _ _ _ hne
    · rw [getD_set_ne _ _ _ _ _ (fun h => hb h.symm)]

/-- An absent key stays absent through any sequence of operations that never
assigns it: assignments to other keys and deletions (successful or failing)
cannot make it present. -/
theorem applyOps_absent (hf : K → Nat) (k : K) (ops : List (HMOp K V)) :
    ∀ (m : HashMap K V), HMInv hf m → m.getItem? hf k = none →
      (∀ op ∈ ops, HMOp.isSetOf k op = false) →
      HMInv hf (applyOps hf m ops) ∧ (applyOps hf m ops).getItem? hf k = none := by
  induction ops with
  | nil => exact fun m hinv hnone _ => ⟨hinv, hnone⟩
  | cons op rest IH =>
    intro m hinv hnone hset
    have hop : HMOp.isSetOf k op = false := hset op (List.mem_cons_self _ _)
    have hrest : ∀ op' ∈ rest, HMOp.isSetOf k op' = false :=
      fun op' h => hset op' (List.mem_cons_of_mem _ h)
    show HMInv hf (rest.foldl (applyOp hf) (applyOp hf m op)) ∧
      (rest.foldl (applyOp hf) (applyOp hf m op)).getItem? hf k = none
    cases op with
    | set k' v =>
      have hk' : ¬ k' = k := by simpa [HMOp.isSetOf] using hop
      apply IH
      · exact setItem_inv hf m hinv k' v
      · show (m.setItem hf k' v).getItem? hf k = none
        rw [getItem?_setItem hf m hinv k' k v, if_neg (fun h => hk' h.symm)]
        exact hnone
      · exact hrest
    | del k' =>
      simp only [applyOp]
      cases hdel : m.delItem? hf k' with
      | none => exact IH m hinv hnone hrest
      | some m₂ =>
        have hkne : k ≠ k' := by
          intro heq
          subst heq
          unfold HashMap.delItem? at hdel
          dsimp only at hdel
          split_ifs at hdel with hhas
          · have hs := getItem?_isSome_eq_containsKey hf m k
            rw [hnone] at hs
            unfold HashMap.containsKey at hs
            rw [hhas] at hs
            cases hs
        apply IH
        · exact delItem?_inv hf m m₂ hinv k' hdel
        · rw [delItem?_getItem_ne hf m m₂ hinv k k' hkne hdel]
          exact hnone
        · exact hrest

/-- Reachable table states satisfy the hash-table invariant. -/
theorem reachableHM_inv (hf : K → Nat) (m : HashMap K V) (hr : ReachableHM hf m) :
    HMInv hf m := by
  induction hr with
  | empty => exact emptyHM_inv hf
  | set m k v hr IH => exact setItem_inv hf m IH k v
  | del m m' k hr hdel IH => exact delItem?_inv hf m m' IH k hdel

/-! ## Claim C6 -/

/-- C6: for every sequence of `set` operations applied to a fresh table,
every key reads back as its last-set value (and absent keys read as
absent), no matter how many capacity-doubling resizes happened along the
way — resizing is transparent to lookups. -/
theorem c6_resize_transparent (hf : K → Nat) (ops : List (K × V)) (k : K) :
    (HashMap.ofOps hf ops).getItem? hf k = lastVal ops k := by
  have main : ∀ (l : List (K × V)) (m0 : HashMap K V), HMInv hf m0 →
      (l.foldl (fun m kv => m.setItem hf kv.1 kv.2) m0).getItem? hf k
        = (lastVal l k).or (m0.getItem? hf k) := by
    intro l
    induction l with
    | nil =>
      intro m0 hinv
      rfl
    | cons p rest IH =>
      intro m0 hinv
      show (rest.foldl _ (m0.setItem hf p.1 p.2)).getItem? hf k = _
      rw [IH _ (setItem_inv hf m0 hinv p.1 p.2), getItem?_setItem hf m0 hinv p.1 k p.2]
      have hcons : lastVal (p :: rest) k
          = (lastVal rest k).or (if p.1 = k then some p.2 else none) := by
        show rest.foldl _ (if p.1 = k then some p.2 else none) = _
        exact lastVal_foldl rest k _
      rw [hcons, Option.or_assoc]
      congr 1
      by_cases hp : p.1 = k
      · rw [if_pos hp, if_pos hp.symm]
        rfl
      · rw [if_neg hp, if_neg (fun h => hp h.symm)]
        rfl
  unfold HashMap.ofOps
  rw [main ops _ (emptyHM_inv hf),
    show (HashMap.emptyHM K V).getItem? hf k = none from getItem?_replicate_table hf 16 k,
    Option.or_none]

/-- C6 (witness): thirteen distinct keys force a resize (capacity grows from
16 to 32) and key `0` still reads back its value, which matches the
last-set value. -/
theorem c6_witness :
    (HashMap.ofOps id ((List.range 13).map (fun i => (i, i)))).capacity = 32 ∧
    (HashMap.ofOps id ((List.range 13).map (fun i => (i, i)))).getItem? id 0 = some 0 ∧
    (HashMap.ofOps id ((List.range 13).map (fun i => (i, i)))).getItem? id 0
      = lastVal ((List.range 13).map (fun i => (i, i))) 0 :=
  ⟨by rfl, by rfl, c6_resize_transparent id _ 0⟩

/-! ## Claim C8 -/

/-- C8: on every reachable table, `__getitem__` and `__delitem__` raise
`KeyError` (return `none`) exactly when the key is not contained; after a
successful delete the key is no longer contained and reads as absent, and it
stays that way through every subsequent sequence of operations that does not
set it again (assignments to other keys and deletions cannot revive it); and
`get(key, default)` never raises — it returns the stored value or the
default. -/
theorem c8_keyerror_semantics (hf : K → Nat) (m : HashMap K V)
    (hr : ReachableHM hf m) (k : K) :
    (m.getItem? hf k = none ↔ m.containsKey hf k = false) ∧
    (m.delItem? hf k = none ↔ m.containsKey hf k = false) ∧
    (∀ m', m.delItem? hf k = some m' →
      m'.containsKey hf k = false ∧ m'.getItem? hf k = none) ∧
    (∀ m', m.delItem? hf k = some m' →
      ∀ ops : List (HMOp K V), (∀ op ∈ ops, HMOp.isSetOf k op = false) →
        (applyOps hf m' ops).containsKey hf k = false ∧
        (applyOps hf m' ops).getItem? hf k = none) ∧
    (∀ d : V, m.getDefault hf k d = (m.getItem? hf k).getD d) := by
  refine ⟨?_, ?_, ?_, ?_, fun d => rfl⟩
  · have hs := getItem?_isSome_eq_containsKey hf m k
    constructor
    · intro h
      rw [h] at hs
      exact hs.symm
    · intro h
      rw [h] at hs
      cases hx : m.getItem? hf k with
      | none => rfl
      | some v =>
        rw [hx] at hs
        simp at hs
  · unfold HashMap.delItem? HashMap.containsKey
    dsimp only
    by_cases hhas : chainHas (m.buckets.getD (hf k % m.capacity) []) k = true
    · rw [if_pos hhas, hhas]
      constructor
      · intro h
        cases h
      · intro h
        cases h
    · rw [if_neg hhas]
      constructor
      · intro _
        exact Bool.eq_false_iff.mpr hhas
      · intro _
        rfl
  · intro m' hdel
    exact delItem?_gone hf m m' (reachableHM_inv hf m hr) k hdel
  · intro m' hdel ops hset
    have hinv' : HMInv hf m' :=
      delItem?_inv hf m m' (reachableHM_inv hf m hr) k hdel
    have hgone := delItem?_gone hf m m' (reachableHM_inv hf m hr) k hdel
    have hkeep := applyOps_absent hf k ops m' hinv' hgone.2 hset
    refine ⟨?_, hkeep.2⟩
    have hs := getItem?_isSome_eq_containsKey hf (applyOps hf m' ops) k
    rw [hkeep.2] at hs
    simpa using hs.symm

/-- C8 (witness): on the concrete reachable table `{1 ↦ "x"}`, deleting key
`1` succeeds, afterwards key `1` is gone, and it stays gone through the
later operations `m[2] = "y"; del m[2]`; getting key `2` raises exactly
because it is absent. -/
theorem c8_witness :
    (((HashMap.emptyHM Nat String).setItem id 1 "x").getItem? id 2 = none ↔
      ((HashMap.emptyHM Nat String).setItem id 1 "x").containsKey id 2 = false) ∧
    (∀ m', ((HashMap.emptyHM Nat String).setItem id 1 "x").delItem? id 1 = some m' →
      m'.containsKey id 1 = false ∧ m'.getItem? id 1 = none) ∧
    (applyOps id (HashMap.emptyHM Nat String)
      [HMOp.set 2 "y", HMOp.del 2]).getItem? id 1 = none :=
  ⟨(c8_keyerror_semantics id _ (ReachableHM.set _ 1 "x" ReachableHM.empty) 2).1,
    (c8_keyerror_semantics id _ (ReachableHM.set _ 1 "x" ReachableHM.empty) 1).2.2.1,
    ((c8_keyerror_semantics id _ (ReachableHM.set _ 1 "x" ReachableHM.empty) 1).2.2.2.1
      (HashMap.emptyHM Nat String) (by rfl) [HMOp.set 2 "y", HMOp.del 2] (by decide)).2⟩

/-! ## Trie verification: child lookup, path walking, insertion -/

theorem walk_cons (t : TrieNode) (c : Char) (cs : List Char) :
    walk t (c :: cs) = match findChild t.children c with
      | some child => walk child cs
      | none => none := rfl

theorem children_mk (ch : List (Char × TrieNode)) (b : Bool) (o : Option (List Char))
    (f : Nat) : (TrieNode.mk ch b o f).children = ch := rfl

theorem findChild_replace_self (l : List (Char × TrieNode)) (c : Char) (n x : TrieNode)
    (hx : findChild l c = some x) : findChild (replaceChild c n l) c = some n := by
  induction l with
  | nil => cases hx
  | cons p rest IH =>
    obtain ⟨a, ch⟩ := p
    simp only [replaceChild, List.map_cons] at *
    by_cases ha : a = c
    · rw [if_pos ha]
      simp [findChild]
    · rw [if_neg ha]
      simp only [findChild, if_neg ha] at hx ⊢
      exact IH hx

theorem findChild_replace_ne (l : List (Char × TrieNode)) (c c' : Char) (n : TrieNode)
    (h : c' ≠ c) : findChild (replaceChild c n l) c' = findChild l c' := by
  induction l with
  | nil => rfl
  | cons p rest IH =>
    obtain ⟨a, ch⟩ := p
    simp only [replaceChild, List.map_cons] at *
    by_cases ha : a = c
    · rw [if_pos ha]
      simp only [findChild]
      rw [if_neg (fun hcc => h hcc.symm), if_neg (by rw [ha]; exact fun hcc => h hcc.symm)]
      exact IH
    · rw [if_neg ha]
      simp only [findChild]
      by_cases ha' : a = c'
      · rw [if_pos ha', if_pos ha']
      · rw [if_neg ha', if_neg ha']
        exact IH

theorem findChild_insert_self (l : List (Char × TrieNode)) (c : Char) (n : TrieNode)
    (hx : findChild l c = none) : findChild (insertChild c n l) c = some n := by
  induction l with
  | nil => simp [insertChild, findChild]
  | cons p rest IH =>
    obtain ⟨a, ch⟩ := p
    simp only [insertChild]
    simp only [findChild] at hx
    by_cases ha : a = c
    · rw [if_pos ha] at hx
      cases hx
    · rw [if_neg ha] at hx
      by_cases hlt : c < a
      · rw [if_pos hlt]
        simp [findChild]
      · rw [if_neg hlt]
        simp only [findChild, if_neg ha]
        exact IH hx

theorem findChild_insert_ne (l : List (Char × TrieNode)) (c c' : Char) (n : TrieNode)
    (h : c' ≠ c) : findChild (insertChild c n l) c' = findChild l c' := by
  induction l with
  | nil =>
    simp only [insertChild, findChild]
    rw [if_neg (fun hcc => h hcc.symm)]
  | cons p rest IH =>
    obtain ⟨a, ch⟩ := p
    simp only [insertChild]
    by_cases hlt : c < a
    · rw [if_pos hlt]
      simp only [findChild]
      rw [if_neg (fun hcc => h hcc.symm)]
    · rw [if_neg hlt]
      simp only [findChild]
      by_cases ha' : a = c'
      · rw [if_pos ha', if_pos ha']
      · rw [if_neg ha', if_neg ha']
        exact IH

theorem walk_emptyNode (cs : List Char) :
    (walk TrieNode.emptyNode cs).isSome = true ↔ cs = [] := by
  cases cs with
  | nil => simp [walk]
  | cons c rest =>
    rw [walk_cons]
    simp [TrieNode.emptyNode, children_mk, findChild]

theorem walk_insertChars (cs : List Char) :
    ∀ (t : TrieNode) (cs0 orig : List Char),
    (walk (insertChars t cs0 orig) cs).isSome = true ↔
      (walk t cs).isSome = true ∨ cs <+: cs0 := by
  induction cs with
  | nil =>
    intro t cs0 orig
    simp [walk, List.nil_prefix]
  | cons c cs' IH =>
    intro t cs0 orig
    cases cs0 with
    | nil =>
      rw [show insertChars t [] orig
          = TrieNode.mk t.children true (some orig) (t.frequency + 1) from rfl]
      rw [walk_cons, walk_cons, children_mk]
      have hnp : ¬ ((c :: cs') <+: ([] : List Char)) := by
        intro hp
        cases List.prefix_nil.mp hp
      cases hfc : findChild t.children c with
      | none => simp [hnp]
      | some child => simp [hnp]
    | cons c0 rest0 =>
      cases hfc : findChild t.children c0 with
      | some child =>
        have hins : insertChars t (c0 :: rest0) orig
            = TrieNode.mk (replaceChild c0 (insertChars child rest0 orig) t.children)
              t.is_end t.original_word t.frequency := by
          rw [insertChars, hfc]
        rw [hins, walk_cons, walk_cons, children_mk]
        by_cases hc : c = c0
        · subst hc
          rw [findChild_replace_self _ _ _ _ hfc, hfc]
          rw [IH child rest0 orig]
          simp [List.cons_prefix_cons]
        · rw [findChild_replace_ne _ _ _ _ hc]
          have hnp : ¬ ((c :: cs') <+: (c0 :: rest0)) := by
            rw [List.cons_prefix_cons]
            exact fun hp => hc hp.1
          cases hfc' : findChild t.children c with
          | none => simp [hnp]
          | some child' => simp [hnp]
      | none =>
        have hins : insertChars t (c0 :: rest0) orig
            = TrieNode.mk (insertChild c0 (insertChars TrieNode.emptyNode rest0 orig)
                t.children) t.is_end t.original_word t.frequency := by
          rw [insertChars, hfc]
        rw [hins, walk_cons, walk_cons, children_mk]
        by_cases hc : c = c0
        · subst hc
          rw [findChild_insert_self _ _ _ hfc, hfc]
          rw [IH TrieNode.emptyNode rest0 orig]
          simp only [walk_emptyNode]
          constructor
          · intro h
            rcases h with rfl | h
            · exact Or.inr ((List.cons_prefix_cons).mpr ⟨rfl, List.nil_prefix⟩)
            · exact Or.inr ((List.cons_prefix_cons).mpr ⟨rfl, h⟩)
          · intro h
            rcases h with h | h
            · cases h
            · exact Or.inr ((List.cons_prefix_cons).mp h).2
        · rw [findChild_insert_ne _ _ _ _ hc]
          have hnp : ¬ ((c :: cs') <+: (c0 :: rest0)) := by
            rw [List.cons_prefix_cons]
            exact fun hp => hc hp.1
          cases hfc' : findChild t.children c with
          | none => simp [hnp]
          | some child' => simp [hnp]

theorem walk_insertW (tr : Trie) (w : List Char) (cs : List Char) :
    (walk (tr.insertW w).root cs).isSome = true ↔
      (walk tr.root cs).isSome = true ∨ (validWord w = true ∧ cs <+: lowerL w) := by
  unfold Trie.insertW
  by_cases hv : validWord w = true
  · rw [if_pos hv]
    dsimp only
    rw [walk_insertChars cs tr.root (lowerL w) w]
    simp [hv]
  · rw [if_neg hv]
    simp [hv]

theorem walk_ofWords (ws : List (List Char)) (cs : List Char) :
    (walk (Trie.ofWords ws).root cs).isSome = true ↔
      cs = [] ∨ ∃ w ∈ ws, validWord w = true ∧ cs <+: lowerL w := by
  have main : ∀ (l : List (List Char)) (tr : Trie),
      (walk (l.foldl (fun tr w => tr.insertW w) tr).root cs).isSome = true ↔
        (walk tr.root cs).isSome = true ∨ ∃ w ∈ l, validWord w = true ∧ cs <+: lowerL w := by
    intro l
    induction l with
    | nil => simp
    | cons w rest IH =>
      intro tr
      show (walk (rest.foldl _ (tr.insertW w)).root cs).isSome = true ↔ _
      rw [IH (tr.insertW w), walk_insertW]
      constructor
      · intro h
        rcases h with (h | h) | h
        · exact Or.inl h
        · exact Or.inr ⟨w, List.mem_cons_self _ _, h⟩
        · obtain ⟨w', hw', hprop⟩ := h
          exact Or.inr ⟨w', List.mem_cons_of_mem w hw', hprop⟩
      · intro h
        rcases h with h | ⟨w', hw', hprop⟩
        · exact Or.inl (Or.inl h)
        · rcases List.mem_cons.mp hw' with rfl | hw''
          · exact Or.inl (Or.inr hprop)
          · exact Or.inr ⟨w', hw'', hprop⟩
  unfold Trie.ofWords
  rw [main ws Trie.emptyTrie]
  rw [show Trie.emptyTrie.root = TrieNode.emptyNode from rfl, walk_emptyNode]

/-! ## Claim C4 -/

/-- C4 (counterexample): on a trie holding the inserted term `"a"`,
`starts_with("")` returns `False` even though a term has been inserted (and
every term begins with the empty prefix), against the claim's empty-prefix
clause. -/
theorem c4_counterexample :
    (Trie.ofWords [['a']]).starts_with [] = false ∧ validWord ['a'] = true ∧
      (['a'] ∈ [['a']]) := by
  refine ⟨rfl, by decide, List.mem_singleton.mpr rfl⟩

/-- C4 (amended): for every trie built by insertions and every NONEMPTY
prefix, `starts_with(prefix)` returns true iff some inserted (non-blank)
term begins with the prefix case-insensitively; for the empty prefix the
code returns `False` unconditionally, even when terms have been inserted. -/
theorem c4_starts_with :
    (∀ (ws : List (List Char)) (p : List Char), p ≠ [] →
      ((Trie.ofWords ws).starts_with p = true ↔
        ∃ w ∈ ws, validWord w = true ∧ (lowerL p).isPrefixOf (lowerL w) = true)) ∧
    (∀ ws : List (List Char), (Trie.ofWords ws).starts_with [] = false) := by
  constructor
  · intro ws p hp
    unfold Trie.starts_with
    rw [if_neg (by simpa using hp)]
    rw [walk_ofWords ws (lowerL p)]
    have hlp : lowerL p ≠ [] := by
      cases p
      · exact absurd rfl hp
      · simp [lowerL]
    constructor
    · intro h
      rcases h with h | ⟨w, hw, hv, hpre⟩
      · exact absurd h hlp
      · have hiff : (lowerL p).isPrefixOf (lowerL w) = true ↔ lowerL p <+: lowerL w :=
          List.isPrefixOf_iff_prefix
        exact ⟨w, hw, hv, hiff.mpr hpre⟩
    · intro h
      obtain ⟨w, hw, hv, hpre⟩ := h
      have hiff : (lowerL p).isPrefixOf (lowerL w) = true ↔ lowerL p <+: lowerL w :=
        List.isPrefixOf_iff_prefix
      exact Or.inr ⟨w, hw, hv, hiff.mp hpre⟩
  · intro ws
    rfl

/-- C4 (witness): in a trie holding `"Py"`, the prefix `"p"` is reported
present, matching the case-insensitive characterization. -/
theorem c4_witness :
    (Trie.ofWords [['P', 'y']]).starts_with ['p'] = true ↔
      ∃ w ∈ [['P', 'y']], validWord w = true ∧
        (lowerL ['p']).isPrefixOf (lowerL w) = true :=
  (c4_starts_with).1 [['P', 'y']] ['p'] (by decide)

/-! ## Claim C5: `_collect_words` with its early-exit limit is a take of the
full DFS, and `get_suggestions` matches the spec's description -/

theorem take_append_take {γ : Type} (l l2 : List γ) (n : Nat) :
    (l.take n ++ l2).take n = (l ++ l2).take n := by
  induction l generalizing n with
  | nil => simp
  | cons a rest IH =>
    cases n with
    | zero => rfl
    | succ m =>
      simp only [List.take_succ_cons, List.cons_append]
      rw [IH]

theorem collect_take_both : ∀ (n : Nat),
    (∀ (node : TrieNode), sizeOf node ≤ n → ∀ (acc : List WordEntry) (limit : Nat),
      acc.length ≤ limit → collectWords node acc limit = (acc ++ dfsAll node).take limit) ∧
    (∀ (l : List (Char × TrieNode)), sizeOf l ≤ n →
      ∀ (acc : List WordEntry) (limit : Nat),
      acc.length ≤ limit → collectGo l acc limit = (acc ++ dfsGo l).take limit) := by
  intro n
  induction n with
  | zero =>
    constructor
    · intro node hsize
      exfalso
      cases node
      simp at hsize
    · intro l hsize
      exfalso
      cases l <;> simp at hsize
  | succ n IH =>
    obtain ⟨IHnode, IHlist⟩ := IH
    constructor
    · intro node hsize acc limit hacc
      rw [collectWords]
      by_cases hl : limit ≤ acc.length
      · rw [if_pos hl]
        have hle : acc.length = limit := le_antisymm hacc hl
        rw [← hle, List.take_left]
      · rw [if_neg hl]
        have hchild : sizeOf node.children ≤ n := by
          cases node
          simp only [children_mk]
          simp at hsize
          omega
        have hacc1 : (if node.is_end = true then
            acc ++ [(node.original_word.getD [], node.frequency)] else acc).length
              ≤ limit := by
          by_cases he : node.is_end = true
          · rw [if_pos he]
            simp
            omega
          · rw [if_neg he]
            exact hacc
        rw [IHlist node.children hchild _ limit hacc1, dfsAll]
        by_cases he : node.is_end = true
        · rw [if_pos he, if_pos he, ← List.append_assoc]
        · rw [if_neg he, if_neg he]
          simp
    · intro l hsize acc limit hacc
      cases l with
      | nil =>
        rw [collectGo, dfsGo, List.append_nil, List.take_of_length_le hacc]
      | cons q rest =>
        obtain ⟨c, child⟩ := q
        rw [collectGo, dfsGo]
        have hchild : sizeOf child ≤ n := by
          simp at hsize
          omega
        have hrest : sizeOf rest ≤ n := by
          simp at hsize
          omega
        rw [IHnode child hchild acc limit hacc]
        have hlen2 : ((acc ++ dfsAll child).take limit).length ≤ limit := by
          simp [List.length_take]
        rw [IHlist rest hrest _ limit hlen2, take_append_take, List.append_assoc]

theorem get_suggestions_eq_spec (tr : Trie) (p : List Char) (limit : Nat) :
    tr.get_suggestions p limit = suggestSpec tr p limit := by
  unfold Trie.get_suggestions suggestSpec
  by_cases hp : p.isEmpty
  · rw [if_pos hp, if_pos hp]
  · rw [if_neg hp, if_neg hp]
    cases hw : walk tr.root (lowerL p) with
    | none => rfl
    | some node =>
      dsimp only
      have hc := (collect_take_both (sizeOf node)).1 node (le_refl _) [] (limit * 3)
        (by simp)
      rw [hc, List.nil_append]

/-- C5: on every trie built by insertions, `get_suggestions(prefix, limit)`
silently returns `[]` when the prefix is empty or no inserted term starts
with it case-insensitively; otherwise (and in general) it equals the spec's
algorithm: take up to `limit * 3` terminal `(originalTerm, count)` pairs in
DFS order with children visited in ascending character order, stably sort
them by count descending breaking ties by shorter term first, and return the
original-cased terms of the first `limit` entries. -/
theorem c5_get_suggestions (ws : List (List Char)) (p : List Char) (limit : Nat) :
    ((Trie.ofWords ws).get_suggestions p limit = suggestSpec (Trie.ofWords ws) p limit) ∧
    ((p = [] ∨ ¬∃ w ∈ ws, validWord w = true ∧ (lowerL p).isPrefixOf (lowerL w) = true) →
      (Trie.ofWords ws).get_suggestions p limit = []) := by
  refine ⟨get_suggestions_eq_spec _ p limit, ?_⟩
  intro h
  unfold Trie.get_suggestions
  by_cases hp : p.isEmpty
  · rw [if_pos hp]
  · rw [if_neg hp]
    have hpne : p ≠ [] := by simpa using hp
    rcases h with rfl | hno
    · exact absurd rfl hpne
    · cases hw : walk (Trie.ofWords ws).root (lowerL p) with
      | none => rfl
      | some node =>
        exfalso
        have hsome : (walk (Trie.ofWords ws).root (lowerL p)).isSome = true := by
          rw [hw]
          rfl
        rw [walk_ofWords] at hsome
        rcases hsome with hnil | ⟨w, hw', hv, hpre⟩
        · apply hpne
          cases p
          · rfl
          · simp [lowerL] at hnil
        · have hiff : (lowerL p).isPrefixOf (lowerL w) = true ↔ lowerL p <+: lowerL w :=
            List.isPrefixOf_iff_prefix
          exact hno ⟨w, hw', hv, hiff.mpr hpre⟩

/-- C5 (witness): on the trie holding only `"zz"`, the query prefix `"ab"`
matches nothing and the suggestion list is empty without error. -/
theorem c5_witness : (Trie.ofWords [['z', 'z']]).get_suggestions ['a', 'b'] 3 = [] :=
  (c5_get_suggestions [['z', 'z']] ['a', 'b'] 3).2 (Or.inr (by decide))

/-! ## Claim C1 -/

set_option maxRecDepth 40000 in
unseal heapify_up heapify_down in
/-- C1 (code bug): the freshness test `(datetime.now() - timestamp).seconds
< 300` compares the day-wrapped seconds component of the age, not the total
age.  At the failing input — an entry cached at time `0` and read at time
`86400` (exactly one day later) — the cached list `["old"]` is served and
the cache state is left untouched, even though the age `86400` is far past
the 300-second TTL; the recomputation would have produced `["svc"]`. -/
theorem c1_stale_cache_served :
    (ServiceManager.get_featured_services id
      (⟨(HashMap.emptyHM Nat (List String × Nat)).setItem id 4 (["old"], 0)⟩ :
        ServiceManager String)
      86400 ["svc"] (fun _ => (0 : Int)) 4).1 = ["old"] ∧
    (ServiceManager.get_featured_services id
      (⟨(HashMap.emptyHM Nat (List String × Nat)).setItem id 4 (["old"], 0)⟩ :
        ServiceManager String)
      86400 ["svc"] (fun _ => (0 : Int)) 4).2 =
      (⟨(HashMap.emptyHM Nat (List String × Nat)).setItem id 4 (["old"], 0)⟩ :
        ServiceManager String) ∧
    MaxHeap.nlargest 4 ["svc"] (fun _ => (0 : Int)) = ["svc"] ∧
    ¬((86400 : Nat) - 0 < 300) :=
  ⟨rfl, rfl, by rfl, by decide⟩

/-! ## Claim C9 -/

/-- C9: a `None` query or a query shorter than 2 characters makes
`get_autocomplete_suggestions` return `[]` immediately with the engine state
(suggestions cache, trie, and build timestamp) completely unchanged. -/
theorem c9_short_query (hf : List Char → Nat) (se : SearchEngine)
    (q : Option (List Char)) (limit : Nat) (catalog : List (List Char)) (now : Nat)
    (h : q = none ∨ ∃ qs, q = some qs ∧ qs.length < 2) :
    se.get_autocomplete_suggestions hf q limit catalog now = ([], se) := by
  rcases h with rfl | ⟨qs, rfl, hlen⟩
  · rfl
  · unfold SearchEngine.get_autocomplete_suggestions
    dsimp only
    rw [if_pos hlen]

/-- C9 (witness): the one-character query `"a"` on a fresh engine returns
`[]` and the state is unchanged. -/
theorem c9_witness :
    SearchEngine.initSE.get_autocomplete_suggestions (fun _ => 0) (some ['a']) 5 [] 0
      = ([], SearchEngine.initSE) :=
  c9_short_query (fun _ => 0) SearchEngine.initSE (some ['a']) 5 [] 0
    (Or.inr ⟨['a'], rfl, by decide⟩)

/-! ## Claim C3 -/

set_option maxRecDepth 100000 in
unseal collectWords collectGo in
/-- C3 (counterexample): rebuilding the trie does NOT invalidate the
suggestions cache.  Start from an engine whose cache maps `"ab"` to
`["old"]`, explicitly rebuild the trie from a catalog containing `"abc"`,
and query `"ab"`: the stale cached `["old"]` is returned, not the rebuilt
index's answer `["abc"]` that the claim requires. -/
theorem c3_counterexample :
    (SearchEngine.get_autocomplete_suggestions (fun _ => 0)
      (SearchEngine.build_trie
        ⟨(HashMap.emptyHM (List Char) (List (List Char))).setItem (fun _ => 0)
          ['a', 'b'] [['o', 'l', 'd']], Trie.emptyTrie, some 0⟩
        [['a', 'b', 'c']] 1000)
      (some ['a', 'b']) 5 [] 1000).1 = [['o', 'l', 'd']] ∧
    (SearchEngine.build_trie
      ⟨(HashMap.emptyHM (List Char) (List (List Char))).setItem (fun _ => 0)
        ['a', 'b'] [['o', 'l', 'd']], Trie.emptyTrie, some 0⟩
      [['a', 'b', 'c']] 1000).trie.get_suggestions ['a', 'b'] 5 = [['a', 'b', 'c']] ∧
    ([['o', 'l', 'd']] : List (List Char)) ≠ [['a', 'b', 'c']] :=
  ⟨rfl, by rfl, by decide⟩

/-- C3 (amended): a query of length at least 2 whose lowercased form is in
the suggestions cache is answered from the cache unconditionally — no TTL
check, no rebuild, state unchanged; and nothing invalidates the cache: an
explicit trie rebuild leaves the suggestions cache intact, so a previously
cached query keeps being served from the old cache even after a rebuild. -/
theorem c3_cache_behavior :
    (∀ (hf : List Char → Nat) (se : SearchEngine) (qs : List Char) (limit : Nat)
      (catalog : List (List Char)) (now : Nat) (v : List (List Char)),
      2 ≤ qs.length →
      se.suggestions_cache.getItem? hf (lowerL qs) = some v →
      se.get_autocomplete_suggestions hf (some qs) limit catalog now = (v, se)) ∧
    (∀ (se : SearchEngine) (catalog : List (List Char)) (now : Nat),
      (se.build_trie catalog now).suggestions_cache = se.suggestions_cache) := by
  constructor
  · intro hf se qs limit catalog now v hlen hcache
    unfold SearchEngine.get_autocomplete_suggestions
    dsimp only
    rw [if_neg (by omega), hcache]
  · intro se catalog now
    rfl

/-- C3 (witness): the concrete engine whose cache maps `"ab"` to `["old"]`
answers the query `"ab"` from the cache with its state unchanged. -/
theorem c3_witness :
    SearchEngine.get_autocomplete_suggestions (fun _ => 0)
      ⟨(HashMap.emptyHM (List Char) (List (List Char))).setItem (fun _ => 0)
        ['a', 'b'] [['o', 'l', 'd']], Trie.emptyTrie, some 0⟩
      (some ['a', 'b']) 5 [] 0
      = ([['o', 'l', 'd']],
        ⟨(HashMap.emptyHM (List Char) (List (List Char))).setItem (fun _ => 0)
          ['a', 'b'] [['o', 'l', 'd']], Trie.emptyTrie, some 0⟩) :=
  c3_cache_behavior.1 (fun _ => 0) _ ['a', 'b'] 5 [] 0 [['o', 'l', 'd']]
    (by decide) (by rfl)

end SkillVerse
